import Mathlib

/-!
Verification development for the hybrid LSM-tree / HNSW key-value store
(sources: src/kvstore.cc, src/kvstore.h, src/skiplist.cpp).

The C++ sources are shallowly embedded: machine integers are natural
numbers with explicit `% 2^32` / `% 2^64` where the C++ arithmetic wraps,
the skip list is represented by its key-ordered level-0 chain, sorted
runs by their (timestamp, entry-list) content, and file I/O by the data
actually written or read.  Floating-point vectors are represented over ℚ
with the few float constants the control flow inspects modelled exactly
(the all-components-FLT_MAX tombstone vector compares by exact equality
in the source, so ℚ equality is faithful).
-/

namespace SmartLSM

/-- The reserved tombstone string, kvstore.cc:94. -/
def DEL : String := "~DELETED~"

/-- Run budget, kvstore.cc:95. -/
def MAXSIZE : ℕ := 2 * 1024 * 1024

def U32 : ℕ := 2 ^ 32

def U64 : ℕ := 2 ^ 64

/-- `INF`, the timestamp tag given to memtable entries during `scan`
(kvstore.cc:791) and the initial `lastKey`; the largest u64 value. -/
def INF : ℕ := 2 ^ 64 - 1

/-- `uint32_t` wrap-around subtraction `a - b` (operands already reduced
mod 2^32 or arbitrary ℕ for `b`). -/
def u32sub (a b : ℕ) : ℕ := (a + (U32 - b % U32)) % U32

/-! ## Memtable: the skip list of src/skiplist.cpp

The probabilistic tower of forward pointers only accelerates the walk;
every operation's visible behaviour is determined by the key-ordered
level-0 chain, which we represent as a list of (key, value) pairs in
strictly ascending key order.  `bytes` is the `uint32_t` byte counter and
`cnt` the node counter `s` (which starts at 1, counting the head
sentinel, see skiplist.cpp reset). -/

structure skiplist where
  entries : List (ℕ × String)
  bytes : ℕ
  cnt : ℕ
  deriving Repr, DecidableEq

/-- The state `reset()` produces (skiplist.cpp:162): empty chain,
`bytes = 0`, `s = 1`. -/
def skiplist.init : skiplist := ⟨[], 0, 1⟩

/-- Find the value bound to `k` on the chain (first occurrence; the chain
is strictly sorted so there is at most one). -/
def slFind (l : List (ℕ × String)) (k : ℕ) : Option String :=
  (l.find? (fun e => e.1 = k)).map (·.2)

/-- `skiplist::search` (skiplist.cpp:73): returns the bound value, or the
empty string when the key is absent. -/
def skiplist.search (m : skiplist) (k : ℕ) : String :=
  (slFind m.entries k).getD ""

/-- Insert/update on the sorted chain: walk past strictly smaller keys,
replace an equal key in place, otherwise link a new node. -/
def insEntries (k : ℕ) (v : String) : List (ℕ × String) → List (ℕ × String)
  | [] => [(k, v)]
  | e :: rest =>
    if k < e.1 then (k, v) :: e :: rest
    else if k = e.1 then (k, v) :: rest
    else e :: insEntries k v rest

/-- `skiplist::insert` (skiplist.cpp:25): upsert with byte accounting.
Replacing an existing key runs `bytes = bytes - oldLen + str.length()`
in `uint32_t` arithmetic; a fresh key runs `bytes += 12 + str.length()`
and `s++`. -/
def skiplist.insert (m : skiplist) (k : ℕ) (v : String) : skiplist :=
  match slFind m.entries k with
  | some old =>
    { m with
      entries := insEntries k v m.entries
      bytes := (u32sub m.bytes (old.length % U32) + v.length) % U32 }
  | none =>
    { m with
      entries := insEntries k v m.entries
      bytes := (m.bytes + (12 + v.length)) % U32
      cnt := m.cnt + 1 }

/-- Remove the first (hence, on a sorted chain, the only) node with key
`k`. -/
def eraseEntry (k : ℕ) : List (ℕ × String) → List (ℕ × String)
  | [] => []
  | e :: rest => if e.1 = k then rest else e :: eraseEntry k rest

/-- `skiplist::del` (skiplist.cpp:92): physical removal.  On a hit it
runs `bytes -= 12 + cur->val.length()` (the right-hand side is `size_t`,
the store truncates to `uint32_t`) and `s--`; on a miss it returns
`false` and leaves the list unchanged. -/
def skiplist.del (m : skiplist) (k : ℕ) : Bool × skiplist :=
  match slFind m.entries k with
  | none => (false, m)
  | some old =>
    (true,
      { m with
        entries := eraseEntry k m.entries
        bytes := ((m.bytes + (U64 - (12 + old.length) % U64)) % U64) % U32
        cnt := m.cnt - 1 })

/-- `skiplist::scan` (skiplist.cpp:137): walk from `lowerBound(k1)` while
the key is at most `k2`.  On the sorted chain this is dropping the strict
prefix below `k1` and taking the contiguous block up to `k2`. -/
def skiplist.scanRange (m : skiplist) (k1 k2 : ℕ) : List (ℕ × String) :=
  (m.entries.dropWhile (fun e => e.1 < k1)).takeWhile (fun e => e.1 ≤ k2)

/-- `skiplist::getBytes`. -/
def skiplist.getBytes (m : skiplist) : ℕ := m.bytes

/-- `skiplist::getCnt`. -/
def skiplist.getCnt (m : skiplist) : ℕ := m.cnt

/-- The payload accounting target: `12 + len(value)` summed over the live
entries. -/
def sumBytes (l : List (ℕ × String)) : ℕ :=
  l.foldr (fun e acc => 12 + e.2.length + acc) 0

/-! ## Sorted runs (SSTables)

`sstable.h` / `sstablehead.h` are not among the sources, so the run
accessors are modelled from the spec (§4.1): a run is an immutable sorted
file whose header carries a generation timestamp and the min/max key,
whose index supports `lowerBound` / binary search, and whose value region
yields the value bytes of an indexed key.  We carry the timestamp and the
sorted entry list; min/max are derived from the entries exactly as the
writer records them. -/

structure Run where
  time : ℕ
  entries : List (ℕ × String)
  deriving Repr, DecidableEq

/-- Modelled from the spec: the header's minimum key (first key of the
sorted entry list; runs written by the store are never empty). -/
def Run.minV (r : Run) : ℕ := (r.entries.head?.map (·.1)).getD 0

/-- Modelled from the spec: the header's maximum key (last key of the
sorted entry list). -/
def Run.maxV (r : Run) : ℕ := (r.entries.getLast?.map (·.1)).getD 0

/-- Modelled from the spec: `lookup` via bloom probe plus binary search —
no false negatives, so behaviourally: the value bound to `k` when `k` is
present (`searchOffset` returning `-1` is `none`). -/
def Run.lookup (r : Run) (k : ℕ) : Option String :=
  (r.entries.find? (fun e => e.1 = k)).map (·.2)

/-- Modelled from the spec: `range_lowerbound(k)` — index of the first
entry with key ≥ `k`, or the entry count when there is none. -/
def Run.lowerBound (r : Run) (k : ℕ) : ℕ :=
  r.entries.findIdx (fun e => k ≤ e.1)

/-- Modelled from the spec: `sstablehead::search(k)` — the index of `k`
in the key index when present. -/
def Run.searchIdx (r : Run) (k : ℕ) : Option ℕ :=
  if (r.entries.find? (fun e => e.1 = k)).isSome then some (r.lowerBound k) else none

/-- Modelled from the spec: byte size of a run under construction,
`header(32) + bloom(10240) + Σ (12 + len(value))` (an index slot plus
the key is 12 bytes per entry). -/
def runBytes (l : List (ℕ × String)) : ℕ := 32 + 10240 + sumBytes l

/-! ## The KVStore state

`sstableIndex` is the per-level list of run headers (`levels`, index 0 =
level 0, `totalLevel = levels.length - 1`), `time` the global `TIME`
generation counter, `dim` the `embedding_dimension_` (preset to 768 by
the constructor, kvstore.cc:185).  The embedding model is external
(spec §1, §6): only the length of the vector it returns steers the LSM
control flow, so the model is a parameter `embedLen : String → ℕ` with `0`
standing for an empty (failed) embedding. -/

structure KVState where
  mem : skiplist
  levels : List (List Run)
  time : ℕ
  dim : ℕ
  deriving Repr, DecidableEq

/-- The state a fresh `KVStore` starts from when its directory is empty
(constructor, kvstore.cc:164-236): no levels on disk (`totalLevel = -1`),
`TIME = 0`, dimension preset to 768. -/
def KVState.init : KVState := ⟨skiplist.init, [], 0, 768⟩

/-! ### get — kvstore.cc:582-625 -/

/-- One level of the lookup loop: skip runs whose `[min,max]` range
misses the key; on a range hit with an absent key, level 0 continues to
the next run while deeper levels `break`; on a hit, keep the candidate
from the run with the largest timestamp (`getTime() > time`). -/
def levelScan (k : ℕ) (isL0 : Bool) : List Run → ℕ × Option String → ℕ × Option String
  | [], best => best
  | r :: rs, best =>
    if k < r.minV ∨ r.maxV < k then levelScan k isL0 rs best
    else
      match r.lookup k with
      | none => if isL0 then levelScan k isL0 rs best else best
      | some v =>
        levelScan k isL0 rs (if best.1 < r.time then (r.time, some v) else best)

/-- The outer loop over levels: stop after the first level that set the
timestamp (`if (time) break`). -/
def diskScan (k : ℕ) : List (List Run) → Bool → ℕ × Option String → ℕ × Option String
  | [], _, best => best
  | l :: ls, isL0, best =>
    let best' := levelScan k isL0 l best
    if best'.1 ≠ 0 then best' else diskScan k ls false best'

/-- `KVStore::get` (kvstore.cc:582): memtable first — a non-empty result
wins, with `DEL` mapped to "not found"; otherwise scan the levels and map
a fetched `DEL` (or no candidate) to the empty string. -/
def KVState.get (st : KVState) (k : ℕ) : String :=
  let res := st.mem.search k
  if res ≠ "" then (if res = DEL then "" else res)
  else
    match (diskScan k st.levels true (0, none)).2 with
    | none => ""
    | some v => if v = DEL then "" else v

/-! ### compaction — kvstore.cc:845-1125 -/

/-- Latest-wins reconciliation of the multi-way merge (the
`latestValues` map, kvstore.cc:957-993): for one key, fold over every
input run containing it, replacing the candidate only on a strictly
larger timestamp. -/
def latestFor (inputs : List Run) (k : ℕ) : Option (ℕ × String) :=
  inputs.foldl
    (fun best r =>
      match r.lookup k with
      | none => best
      | some v =>
        match best with
        | none => some (r.time, v)
        | some b => if b.1 < r.time then some (r.time, v) else best)
    none

/-- Strictly-ascending insertion into a sorted key list, dropping
duplicates (the `std::map` key order of `latestValues`). -/
def insKey (k : ℕ) : List ℕ → List ℕ
  | [] => [k]
  | x :: xs => if k < x then k :: x :: xs else if k = x then x :: xs else x :: insKey k xs

/-- All keys of the input runs, ascending and deduplicated. -/
def mergedKeys (inputs : List Run) : List ℕ :=
  (inputs.flatMap (fun r => r.entries.map (·.1))).foldr insKey []

/-- The merged, latest-wins content of the input runs in ascending key
order. -/
def mergeLatest (inputs : List Run) : List (ℕ × String) :=
  (mergedKeys inputs).filterMap (fun k => (latestFor inputs k).map (fun b => (k, b.2)))

/-- Splitting the merge output into runs (kvstore.cc:996-1052): `TIME++`
once up front; each entry is inserted into the current output table, and
when its byte size reaches `MAXSIZE` the table is written with the
current stamp and a fresh table gets `++TIME`; a final non-empty table is
written with the current stamp. -/
def splitRuns (t : ℕ) : List (ℕ × String) → List (ℕ × String) → List Run × ℕ
  | cur, [] => if cur.isEmpty then ([], t) else ([Run.mk t cur], t)
  | cur, e :: rest =>
    let cur' := cur ++ [e]
    if MAXSIZE ≤ runBytes cur' then
      let (rs, t') := splitRuns (t + 1) [] rest
      (Run.mk t cur' :: rs, t')
    else splitRuns t cur' rest

/-- Replace index `i` of the level list, padding with empty levels if the
list is shorter (directory creation updates `totalLevel`). -/
def setLevel : List (List Run) → ℕ → List Run → List (List Run)
  | _ :: ls, 0, v => v :: ls
  | [], 0, v => [v]
  | l :: ls, i + 1, v => l :: setLevel ls i v
  | [], i + 1, v => [] :: setLevel [] i v

/-- The combined key range of the level-0 runs (kvstore.cc:859-871). -/
def l0minK (l0 : List Run) : ℕ := (l0.map Run.minV).foldr min INF

def l0maxK (l0 : List Run) : ℕ := (l0.map Run.maxV).foldr max 0

/-- The level-1 runs whose range intersects the combined level-0 range
(kvstore.cc:873-882; the `level + 1 ≤ totalLevel` guard). -/
def overlRuns (st : KVState) : List Run :=
  if 2 ≤ st.levels.length then
    (st.levels.getD 1 []).filter (fun r =>
      ¬(r.maxV < l0minK (st.levels.getD 0 []) ∨ l0maxK (st.levels.getD 0 []) < r.minV))
  else []

/-- The runs actually fed to the merge: all of level 0 plus the
overlapping level-1 runs, those with entries (kvstore.cc:890-943: a run
contributes to the priority queue only when `getCnt() > 0`). -/
def compInputs (st : KVState) : List Run :=
  (st.levels.getD 0 [] ++ overlRuns st).filter (fun r => ¬r.entries.isEmpty)

/-- The live (non-tombstone) latest-wins merge output
(kvstore.cc:995-1003). -/
def compLive (st : KVState) : List (ℕ × String) :=
  (mergeLatest (compInputs st)).filter (fun e => e.2 ≠ DEL)

/-- The state change of a triggered level-0 merge: split the live output
into budgeted runs appended to level 1, clear level 0, drop the consumed
overlapping level-1 inputs, and advance `TIME` as `splitRuns` stamped
the outputs. -/
def compactionMerge (st : KVState) : KVState :=
  { st with
    time := (splitRuns (st.time + 1) [] (compLive st)).2
    levels := setLevel (setLevel st.levels 0 []) 1
      (((st.levels.getD 1 []).filter (fun r => r ∉ overlRuns st))
        ++ (splitRuns (st.time + 1) [] (compLive st)).1) }

/-- `KVStore::compaction` (kvstore.cc:845).  Only the level-0 branch
merges: when level 0 holds more than 4 runs it takes all of them plus
every level-1 run overlapping their combined key range, multi-way merges
with latest-wins, drops tombstone values (kvstore.cc:1001), splits the
output into ≤ `MAXSIZE` runs appended to level 1, and removes the
inputs (an empty priority queue instead skips the merge entirely).
After that the loop either returns or reaches the `level ≥ 1` branch,
which computes its selection and returns without writing
(kvstore.cc:1084-1123) — so for levels ≥ 1 the state is unchanged. -/
def KVState.compaction (st : KVState) : KVState :=
  if 4 < (st.levels.getD 0 []).length then
    if (compInputs st).isEmpty then st else compactionMerge st
  else st

/-! ### put — kvstore.cc:323-576 -/

/-- `KVStore::put` (kvstore.cc:323), with the embedding model abstracted
to the length of the vector it returns (`embedLen`).  Steps: determine /
validate the dimension (an unfixed dimension is set from the first
non-tombstone, non-empty value; a non-empty vector of the wrong length
aborts the put, kvstore.cc:356-358); estimate the post-insert memtable
size in `uint32_t` arithmetic; if it would exceed the run budget, flush
the memtable to a fresh level-0 run with stamp `++TIME` and run
compaction; finally upsert into the memtable.  (The embedding map and
HNSW updates do not feed back into the LSM read path and are modelled
separately.) -/
def KVState.put (embedLen : String → ℕ) (st : KVState) (k : ℕ) (v : String) : KVState :=
  let L := embedLen v
  let dim1 :=
    if st.dim = 0 ∧ v ≠ "" ∧ v ≠ DEL ∧ L ≠ 0 then L else st.dim
  if v ≠ "" ∧ v ≠ DEL ∧ L ≠ 0 ∧ L ≠ dim1 ∧ dim1 ≠ 0 then { st with dim := dim1 }
  else
    let st := { st with dim := dim1 }
    let cur := st.mem.getBytes
    let existing := st.mem.search k
    let est :=
      if existing ≠ "" then
        ((cur + (U64 - existing.length % U64)) % U64 + v.length % U32) % U32
      else (cur + 12 + v.length % U32) % U32
    if MAXSIZE < (est + 10240 + 32) % U32 ∧ 0 < st.mem.getCnt then
      let entries := st.mem.entries
      let st' :=
        { st with
          mem := skiplist.init
          time := st.time + 1
          levels :=
            if ¬entries.isEmpty then
              setLevel st.levels 0 (st.levels.getD 0 [] ++ [Run.mk (st.time + 1) entries])
            else st.levels }
      let st'' := st'.compaction
      { st'' with mem := st''.mem.insert k v }
    else { st with mem := st.mem.insert k v }

/-- `KVStore::del` (kvstore.cc:631): reads the key from the memtable
only; the sstable lookup announced by its comments is absent, so a key
not in the memtable makes `del` return `false` without writing anything.
Otherwise the tombstone string is upserted.  (The HNSW mark-deleted side
effect lives in the HNSW model.) -/
def KVState.del (st : KVState) (k : ℕ) : Bool × KVState :=
  let value := st.mem.search k
  if value = "" then (false, st)
  else (true, { st with mem := st.mem.insert k DEL })

/-! ### scan — kvstore.cc:781-842

The heap-based k-way merge pops items in ascending key order, and among
equal keys the largest timestamp first (`cmp`, kvstore.cc:772); the
`lastKey` guard then keeps only the first item per key.  We model each
source's contribution as a tagged item list and reproduce the pop order
by grouping: ascending distinct keys, per key the maximum-timestamp item
(the first source in our fixed order on a timestamp tie, which mirrors
an unspecified heap tie).  Memtable items are tagged `INF` and `lastKey`
starts at `INF` (kvstore.cc:791, 813). -/

/-- The items one run feeds into the merge.  A run participates when its
range filter passes and `hIndex = lowerBound(k1) < cnt`; its first item
at `hIndex` is pushed unconditionally, further items follow while
`index + 1 < end` where `end` is `lowerBound(k2)`, plus one if `k2`
itself is present (kvstore.cc:796-811, 827-829). -/
def runStream (k1 k2 : ℕ) (r : Run) : List (ℕ × ℕ × String) :=
  if r.maxV < k1 ∨ k2 < r.minV then []
  else
    let h := r.lowerBound k1
    if h < r.entries.length then
      let t0 := r.lowerBound k2
      let endIdx := if r.searchIdx k2 = some t0 then t0 + 1 else t0
      let first := r.entries.getD h (0, "")
      let rest := (r.entries.drop (h + 1)).take (endIdx - (h + 1))
      (first :: rest).map (fun e => (e.1, r.time, e.2))
    else []

/-- Everything pushed into the merge heap over the whole scan. -/
def scanItems (st : KVState) (k1 k2 : ℕ) : List (ℕ × ℕ × String) :=
  (st.mem.scanRange k1 k2).map (fun e => (e.1, INF, e.2))
    ++ st.levels.flatMap (fun l => l.flatMap (runStream k1 k2))

/-- The item that wins for key `k`: maximum timestamp, first listed on a
tie. -/
def bestVal (items : List (ℕ × ℕ × String)) (k : ℕ) : Option (ℕ × String) :=
  items.foldl
    (fun best it =>
      if it.1 = k then
        match best with
        | none => some it.2
        | some b => if b.1 < it.2.1 then some it.2 else best
      else best)
    none

/-- Emission loop over the ascending distinct keys with the `lastKey`
duplicate guard; a winning value is listed when it is neither empty nor
the tombstone (kvstore.cc:824, 834). -/
def emitKeys (items : List (ℕ × ℕ × String)) : List ℕ → ℕ → List (ℕ × String)
  | [], _ => []
  | k :: ks, lastK =>
    if k = lastK then emitKeys items ks lastK
    else
      match bestVal items k with
      | some b => if b.2 ≠ "" ∧ b.2 ≠ DEL then (k, b.2) :: emitKeys items ks k else emitKeys items ks k
      | none => emitKeys items ks k

/-- `KVStore::scan` (kvstore.cc:781). -/
def KVState.scan (st : KVState) (k1 k2 : ℕ) : List (ℕ × String) :=
  let items := scanItems st k1 k2
  emitKeys items ((items.map (·.1)).foldr insKey []) INF

/-! ## The HNSW graph — kvstore.h:21-108, kvstore.cc:1741-1960

The graph state mirrors the `hnsw_nodes_` / `key_to_label_` /
`label_to_key_` maps and the entry-point bookkeeping.  Two aspects of
`hnsw_insert` cannot live inside a shallow embedding and are therefore
inputs of each operation: the randomly sampled node level
(`get_random_level`, a draw from the rng) and the candidate lists the
greedy searches return (`search_layer_internal` ranks by float cosine
distance).  The insert is modelled for arbitrary values of both, so
every theorem below covers whatever the concrete search produces.
Float distances used by pruning are likewise an arbitrary parameter
`dist`, and membership in the `embeddings` map a parameter `hasEmb`. -/

/-- `HNSW_M` (kvstore.h:81). -/
def HNSW_M : ℕ := 10

/-- `HNSW_M_max` (kvstore.h:82). -/
def HNSW_M_max : ℕ := 20

structure HNSWNode where
  key : ℕ
  label : ℕ
  max_level : ℕ
  connections : List (List ℕ)
  deleted : Bool
  deriving Repr, DecidableEq

structure HNSWState where
  nodes : List (ℕ × HNSWNode)
  keyToLabel : List (ℕ × ℕ)
  labelToKey : List (ℕ × ℕ)
  nextLabel : ℕ
  entryPoint : ℕ
  currentMaxLevel : ℤ
  dim : ℕ
  deriving Repr, DecidableEq

/-- Association-list lookup (first binding wins; the maps keep one
binding per key). -/
def aFind {α : Type} (l : List (ℕ × α)) (k : ℕ) : Option α :=
  (l.find? (fun e => e.1 = k)).map (·.2)

/-- Association-list bind: replace the first binding of `k`, or append a
new one. -/
def aSet {α : Type} : List (ℕ × α) → ℕ → α → List (ℕ × α)
  | [], k, v => [(k, v)]
  | e :: rest, k, v => if e.1 = k then (k, v) :: rest else e :: aSet rest k v

/-- Apply `f` to the node bound to `label`, if any. -/
def updNode (st : HNSWState) (label : ℕ) (f : HNSWNode → HNSWNode) : HNSWState :=
  match aFind st.nodes label with
  | some n => { st with nodes := aSet st.nodes label (f n) }
  | none => st

/-- `std::vector::resize` on the per-level connection lists: truncate or
pad with empty lists to exactly `n` levels. -/
def resizeConns (l : List (List ℕ)) (n : ℕ) : List (List ℕ) :=
  l.take n ++ List.replicate (n - l.length) []

/-- Fresh-graph state (`KVStore` constructor): no nodes, `next_label_ =
0`, `entry_point_label_ = 0`, `current_max_level_ = -1`, dimension preset
to 768. -/
def HNSWState.init : HNSWState := ⟨[], [], [], 0, 0, -1, 768⟩

/-- Insertion into an ascending-by-distance list (a deterministic
stand-in for the heap's ordering of equal distances). -/
def sortedInsertBy (dist : ℕ → ℕ → ℚ) (base nl : ℕ) : List ℕ → List ℕ
  | [] => [nl]
  | x :: xs =>
    if dist base nl ≤ dist base x then nl :: x :: xs
    else x :: sortedInsertBy dist base nl xs

/-- The neighbours of `node` at `level` that survive the validity filter
of `prune_connections` (present, non-deleted, with an embedding for
their key, kvstore.cc:1943-1948). -/
def pruneValid (hasEmb : ℕ → Bool) (st : HNSWState) (node : HNSWNode) (level : ℕ) : List ℕ :=
  (node.connections.getD level []).filter (fun nl =>
    match aFind st.nodes nl with
    | some nn => ¬nn.deleted ∧ hasEmb ((aFind st.labelToKey nl).getD 0)
    | none => false)

/-- The kept list: the valid neighbours ranked ascending by distance on
the min-heap, with the closest popped — dropped — until at most
`max_conn` remain (kvstore.cc:1950-1958). -/
def pruneKept (dist : ℕ → ℕ → ℚ) (hasEmb : ℕ → Bool) (st : HNSWState)
    (node : HNSWNode) (nodeLabel level maxConn : ℕ) : List ℕ :=
  ((pruneValid hasEmb st node level).foldr
      (fun nl acc => sortedInsertBy dist nodeLabel nl acc) []).drop
    (((pruneValid hasEmb st node level).foldr
        (fun nl acc => sortedInsertBy dist nodeLabel nl acc) []).length - maxConn)

/-- `KVStore::prune_connections` (kvstore.cc:1931-1960): nothing to do
when the level is out of range or the degree is within `max_conn`;
otherwise replace the level list with the kept list. -/
def prune (dist : ℕ → ℕ → ℚ) (hasEmb : ℕ → Bool) (st : HNSWState)
    (nodeLabel level maxConn : ℕ) : HNSWState :=
  match aFind st.nodes nodeLabel with
  | none => st
  | some node =>
    if node.connections.length ≤ level ∨ (node.connections.getD level []).length ≤ maxConn then st
    else
      updNode st nodeLabel (fun n =>
        { n with connections :=
            n.connections.set level (pruneKept dist hasEmb st node nodeLabel level maxConn) })

/-- `if (neighbor_node.connections.size() <= level) resize(level + 1)`
(kvstore.cc:1893-1895). -/
def growConns (nn : HNSWNode) (level : ℕ) : HNSWNode :=
  if nn.connections.length ≤ level then
    { nn with connections := resizeConns nn.connections (level + 1) }
  else nn

/-- The neighbour node after the back edge is appended at `level`. -/
def pushEdge (nn : HNSWNode) (level label : ℕ) : HNSWNode :=
  { nn with connections := nn.connections.set level (nn.connections.getD level [] ++ [label]) }

/-- The body of the neighbour loop at one level (kvstore.cc:1886-1912):
skip self and invalid/deleted neighbours; grow the neighbour's connection
vector to cover `level`; add the back edge unless it is already present
and prune the neighbour to `HNSW_M_max`. -/
def connectNeighbor (dist : ℕ → ℕ → ℚ) (hasEmb : ℕ → Bool) (label level : ℕ)
    (st : HNSWState) (nl : ℕ) : HNSWState :=
  if nl = label then st
  else
    match aFind st.nodes nl with
    | none => st
    | some nn0 =>
      if nn0.deleted then st
      else
        let nn := growConns nn0 level
        let st1 : HNSWState := { st with nodes := aSet st.nodes nl nn }
        if label ∈ nn.connections.getD level [] then st1
        else
          let st2 : HNSWState :=
            { st1 with nodes := aSet st1.nodes nl (pushEdge nn level label) }
          prune dist hasEmb st2 nl level HNSW_M_max

/-- One level of the connection phase (kvstore.cc:1845-1918): take the
`HNSW_M` closest candidates as the new node's neighbour list at this
level, install back edges with pruning, then prune the node itself to
`HNSW_M`. -/
def connectAt (dist : ℕ → ℕ → ℚ) (hasEmb : ℕ → Bool) (st : HNSWState)
    (label level : ℕ) (cand : List ℕ) : HNSWState :=
  let neighbors := cand.take HNSW_M
  let st := updNode st label (fun n =>
    if level < n.connections.length then
      { n with connections := n.connections.set level neighbors }
    else n)
  let st := neighbors.foldl (connectNeighbor dist hasEmb label level) st
  prune dist hasEmb st label level HNSW_M

/-- The connection loop from `level` down to 0. -/
def connectLevels (dist : ℕ → ℕ → ℚ) (hasEmb : ℕ → Bool) (st : HNSWState)
    (label : ℕ) (cands : List (List ℕ)) : ℕ → HNSWState
  | 0 => connectAt dist hasEmb st label 0 (cands.getD 0 [])
  | level + 1 =>
    connectLevels dist hasEmb
      (connectAt dist hasEmb st label (level + 1) (cands.getD (level + 1) []))
      label cands level

/-- Re-insert of an existing key: clear every level's connection list of
its node (kvstore.cc:1750-1762). -/
def insReuseLabel (st : HNSWState) (l : ℕ) : HNSWState :=
  match aFind st.nodes l with
  | some n =>
    { st with nodes := aSet st.nodes l ({ n with connections := n.connections.map (fun _ => []) }) }
  | none => st

/-- A fresh key takes `next_label_++` and both direction maps
(kvstore.cc:1763-1768). -/
def insFreshLabel (st : HNSWState) (key : ℕ) : HNSWState :=
  { st with
    keyToLabel := aSet st.keyToLabel key st.nextLabel
    labelToKey := aSet st.labelToKey st.nextLabel key
    nextLabel := st.nextLabel + 1 }

/-- `hnsw_nodes_.emplace` when the label has no node yet
(kvstore.cc:1773-1778). -/
def insEnsureNode (st : HNSWState) (key label lvl : ℕ) : HNSWState :=
  match aFind st.nodes label with
  | none =>
    { st with nodes := aSet st.nodes label ⟨key, label, lvl, List.replicate (lvl + 1) [], false⟩ }
  | some _ => st

/-- Refresh of the node record: new key/level, live, connection vector
resized to `lvl + 1` (kvstore.cc:1780-1786). -/
def insRefreshNode (st : HNSWState) (key label lvl : ℕ) : HNSWState :=
  updNode st label (fun n =>
    { n with key := key, max_level := lvl, deleted := false
             connections := resizeConns n.connections (lvl + 1) })

/-- `KVStore::hnsw_insert` (kvstore.cc:1741-1928) for a sampled level
`lvl` and per-level candidate lists `cands` (the outputs of
`search_layer_internal`, which reads but never writes the graph).  An
existing key reuses its label with all connection lists cleared; a new
key takes `next_label_++` and both key/label maps.  The node record is
(re)built with the new level, marked live, and its connection vector
resized.  On an empty graph the node becomes the entry point.  Otherwise
the levels `min(lvl, current_max_level) .. 0` are connected, and a node
level above `current_max_level_` promotes the node to entry point. -/
def hnswInsert (dist : ℕ → ℕ → ℚ) (hasEmb : ℕ → Bool) (st : HNSWState)
    (key lvl : ℕ) (cands : List (List ℕ)) : HNSWState :=
  if st.dim = 0 then st
  else
    let pre := aFind st.keyToLabel key
    let label := pre.getD st.nextLabel
    let st1 := match pre with | some l => insReuseLabel st l | none => insFreshLabel st key
    let st2 := insEnsureNode st1 key label lvl
    let st3 := insRefreshNode st2 key label lvl
    if st3.currentMaxLevel < 0 then
      { st3 with
        entryPoint := label
        currentMaxLevel := (lvl : ℤ)
        labelToKey :=
          if (aFind st3.labelToKey label).isSome then st3.labelToKey
          else aSet st3.labelToKey label key }
    else
      let st4 := connectLevels dist hasEmb st3 label cands (min lvl st3.currentMaxLevel.toNat)
      if st4.currentMaxLevel < (lvl : ℤ) then
        { st4 with currentMaxLevel := (lvl : ℤ), entryPoint := label }
      else st4

/-- The HNSW effect of `KVStore::del` (kvstore.cc:646-661): if the key
has a label whose node is live, flip its `deleted` flag (its vector is
also queued for persistence, which the graph state does not track). -/
def markDeleted (st : HNSWState) (key : ℕ) : HNSWState :=
  match aFind st.keyToLabel key with
  | none => st
  | some l =>
    match aFind st.nodes l with
    | some n => if ¬n.deleted then updNode st l (fun m => { m with deleted := true }) else st
    | none => st

/-- One logical mutation of the graph: the HNSW side of a `put` of a key
with a live embedding is `ins` (kvstore.cc:567-568), and the HNSW side
of `del` (and of a `put` that only marks the old node) is `mdel`. -/
inductive HOp where
  | ins (key lvl : ℕ) (cands : List (List ℕ))
  | mdel (key : ℕ)
  deriving Repr, DecidableEq

def stepH (dist : ℕ → ℕ → ℚ) (hasEmb : ℕ → Bool) (st : HNSWState) : HOp → HNSWState
  | .ins key lvl cands => hnswInsert dist hasEmb st key lvl cands
  | .mdel key => markDeleted st key

def runH (dist : ℕ → ℕ → ℚ) (hasEmb : ℕ → Bool) (ops : List HOp) : HNSWState :=
  ops.foldl (stepH dist hasEmb) HNSWState.init

/-! ## The embedding log — kvstore.cc:2075-2171 -/

/-- Embedding vectors; the loader only tests exact equality against the
all-`FLT_MAX` tombstone vector, which ℚ models exactly. -/
abbrev Vec := List ℚ

/-- The largest finite `float`, `2^128 − 2^104`. -/
def floatMax : ℚ := 2 ^ 128 - 2 ^ 104

/-- The tombstone marker vector: every component the maximum finite
float (kvstore.cc:363, 2134). -/
def markerVec (D : ℕ) : Vec := List.replicate D floatMax

/-- The block loop of `load_embedding_from_disk` (kvstore.cc:2136-2167)
applied to the records already reversed into tail-to-head order: a key
in `loaded_keys` is skipped; a tombstone-vector record marks the key
seen without storing; any other record stores the vector and marks the
key seen. -/
def loadEmbGo (D : ℕ) : List (ℕ × Vec) → List ℕ → List (ℕ × Vec) → List (ℕ × Vec)
  | [], _, acc => acc
  | (k, v) :: rest, seen, acc =>
    if k ∈ seen then loadEmbGo D rest seen acc
    else if v = markerVec D then loadEmbGo D rest (k :: seen) acc
    else loadEmbGo D rest (k :: seen) (aSet acc k v)

/-- `KVStore::load_embedding_from_disk` on a well-formed log with
dimension `D` and records `recs` in file (head-to-tail) order: the
in-memory map rebuilt by the tail-to-head scan. -/
def loadEmbeddings (D : ℕ) (recs : List (ℕ × Vec)) : List (ℕ × Vec) :=
  loadEmbGo D recs.reverse [] []

/-- The last record written for a key (first encountered from the
tail). -/
def lastWrite (recs : List (ℕ × Vec)) (k : ℕ) : Option Vec :=
  (recs.reverse.find? (fun r => r.1 = k)).map (·.2)

/-! ## Basic lemmas about the memtable chain -/

theorem slFind_insEntries_self (k : ℕ) (v : String) (l : List (ℕ × String)) :
    slFind (insEntries k v l) k = some v := by
  induction l with
  | nil => simp [insEntries, slFind]
  | cons e rest ih =>
    by_cases h1 : k < e.1
    · simp [insEntries, h1, slFind]
    · by_cases h2 : k = e.1
      · simp [insEntries, h1, h2, slFind]
      · have hne : ¬(e.1 = k) := fun h => h2 h.symm
        unfold slFind at ih ⊢
        simp only [insEntries, if_neg h1, if_neg h2]
        rw [List.find?_cons_of_neg _ (by simpa using hne)]
        exact ih

theorem search_insert (m : skiplist) (k : ℕ) (v : String) :
    (m.insert k v).search k = v := by
  unfold skiplist.insert skiplist.search
  cases h : slFind m.entries k <;> simp [slFind_insEntries_self]

/-- After upserting `(k, v)` with a non-empty `v`, `get k` reads `v` from
the memtable (mapping the tombstone to the empty string). -/
theorem get_mk_insert (m : skiplist) (lv : List (List Run)) (t d : ℕ)
    (k : ℕ) (v : String) (hv : v ≠ "") :
    (KVState.mk (m.insert k v) lv t d).get k = if v = DEL then "" else v := by
  unfold KVState.get
  simp [search_insert, hv]

/-- C10, part of the supporting argument: `put` with the tombstone value
always ends in a memtable upsert of `DEL`, whichever flush path is
taken. -/
theorem put_del_get (eL : String → ℕ) (st : KVState) (k : ℕ) :
    (KVState.put eL st k DEL).get k = "" := by
  unfold KVState.put
  simp only [ne_eq, not_true_eq_false, and_false, false_and, if_false]
  split <;>
  · split
    · rw [get_mk_insert _ _ _ _ k DEL (by decide)]; simp
    · rw [get_mk_insert _ _ _ _ k DEL (by decide)]; simp

/-- C10: for every store state and key, `get` never returns the reserved
tombstone string: both the memtable path (kvstore.cc:591) and the run
path (kvstore.cc:622) map a fetched `DEL` to the empty string.
Consequently `put(k, DEL)` is indistinguishable from a deletion at the
read interface: the subsequent `get(k)` is the empty string. -/
theorem c10_get_never_tombstone :
    (∀ (st : KVState) (k : ℕ), st.get k ≠ DEL) ∧
    (∀ (eL : String → ℕ) (st : KVState) (k : ℕ), (KVState.put eL st k DEL).get k = "") := by
  constructor
  · intro st k
    unfold KVState.get
    dsimp only
    split
    · split
      · decide
      · assumption
    · split
      · decide
      · split
        · decide
        · assumption
  · exact put_del_get

/-- A store state holding the key 5 only in a level-0 sorted run (what a
memtable flush leaves behind). -/
def stC2 : KVState := ⟨skiplist.init, [[Run.mk 1 [(5, "v")]]], 1, 768⟩

/-- C2: the key 5 is present in the store (a sorted run holds it and
`get` returns its value), yet `del 5` returns `false` and changes
nothing, because `KVStore::del` (kvstore.cc:631-643) only consults the
memtable — the sstable lookup promised by its own comments and by its
doc comment ("Returns false iff the key is not found") is missing.  The
subsequent `get` still returns the live value, not the empty string. -/
theorem c2_del_flushed_key_code_bug :
    stC2.get 5 = "v" ∧
    (stC2.del 5).1 = false ∧
    (stC2.del 5).2 = stC2 ∧
    (stC2.del 5).2.get 5 = "v" ∧ ("v" : String) ≠ "" := by
  refine ⟨by decide, by decide, by decide, by decide, by decide⟩

/-- Five single-entry runs for level 1 (cap `2^(1+1) = 4`). -/
def c4run (i : ℕ) : Run := Run.mk (i + 1) [(10 * i, "x")]

/-- A store state whose level 1 exceeds its cap while level 0 is within
its own. -/
def stC4 : KVState :=
  ⟨skiplist.init, [[], [c4run 0, c4run 1, c4run 2, c4run 3, c4run 4]], 6, 768⟩

/-- C4: level 1 holds 5 > 4 runs, yet `compaction` leaves the state
untouched — the `level ≥ 1` branch (kvstore.cc:1084-1123) sorts the
level by timestamp, selects the oldest `count − cap` runs and the
overlapping next-level runs, and then returns without merging or writing
anything ("避免无限递归 return;").  The spec (§9) records that this
branch is incompletely implemented and fixes the intended semantics the
claim describes. -/
theorem c4_deep_level_compaction_code_bug :
    (stC4.levels.getD 1 []).length = 5 ∧
    (1 <<< (1 + 1) : ℕ) = 4 ∧
    stC4.compaction = stC4 ∧
    (stC4.compaction).levels.getD 2 [] = [] := by
  refine ⟨by decide, by decide, by decide, by decide⟩

/-- C1, counterexample: from the empty store, `put(1, "~DELETED~")`
followed by `get(1)` with no intervening mutation returns the empty
string, not the value that was put — the claim's universal
quantification over all value strings fails at the reserved tombstone
string. -/
theorem c1_counterexample :
    (KVState.put (fun _ => 0) KVState.init 1 DEL).get 1 = "" ∧ ¬(("" : String) = DEL) := by
  refine ⟨by decide, by decide⟩

/-- C1 (amended): for every store state, if the value is neither the
empty string nor the reserved tombstone string, and the embedding model
returns no vector or one of the store's dimension (so that the
dimension-mismatch abort of kvstore.cc:356-358 cannot fire), then
`put(k,v)` followed by `get(k)` with no intervening mutation returns
exactly `v`. -/
theorem c1_put_get_amended (eL : String → ℕ) (st : KVState) (k : ℕ) (v : String)
    (h1 : v ≠ "") (h2 : v ≠ DEL)
    (h3 : eL v = 0 ∨ eL v = st.dim ∨ st.dim = 0) :
    (KVState.put eL st k v).get k = v := by
  unfold KVState.put
  dsimp only
  have hdim : ¬(v ≠ "" ∧ v ≠ DEL ∧ eL v ≠ 0 ∧
      eL v ≠ (if st.dim = 0 ∧ v ≠ "" ∧ v ≠ DEL ∧ eL v ≠ 0 then eL v else st.dim) ∧
      (if st.dim = 0 ∧ v ≠ "" ∧ v ≠ DEL ∧ eL v ≠ 0 then eL v else st.dim) ≠ 0) := by
    rintro ⟨-, -, hL, hne, hz⟩
    rcases h3 with h | h | h
    · exact hL h
    · by_cases h0 : st.dim = 0
      · rw [if_pos ⟨h0, h1, h2, hL⟩] at hne; exact hne rfl
      · rw [if_neg (by simp [h0])] at hne; exact hne h
    · rw [if_pos ⟨h, h1, h2, hL⟩] at hne; exact hne rfl
  rw [if_neg hdim]
  split <;>
  · split
    · rw [get_mk_insert _ _ _ _ k v h1]; simp [h2]
    · rw [get_mk_insert _ _ _ _ k v h1]; simp [h2]

/-- C1 witness: the amended round trip at a concrete input. -/
theorem c1_put_get_amended_witness :
    ("hello" : String) ≠ "" ∧ ("hello" : String) ≠ DEL ∧
      ((fun (_ : String) => (0 : ℕ)) "hello" = 0 ∨
        (fun (_ : String) => (0 : ℕ)) "hello" = KVState.init.dim ∨ KVState.init.dim = 0) ∧
      (KVState.put (fun _ => 0) KVState.init 1 "hello").get 1 = "hello" :=
  ⟨by decide, by decide, Or.inl rfl,
    c1_put_get_amended (fun _ => 0) KVState.init 1 "hello" (by decide) (by decide) (Or.inl rfl)⟩

/-! ## Association-list lemmas -/

theorem aFind_aSet_self {α : Type} (l : List (ℕ × α)) (k : ℕ) (v : α) :
    aFind (aSet l k v) k = some v := by
  induction l with
  | nil => simp [aSet, aFind]
  | cons e rest ih =>
    by_cases h : e.1 = k
    · simp [aSet, h, aFind]
    · unfold aFind at ih ⊢
      simp only [aSet, if_neg h]
      rw [List.find?_cons_of_neg _ (by simpa using h)]
      exact ih

theorem aFind_aSet_ne {α : Type} (l : List (ℕ × α)) (k : ℕ) (v : α) (k' : ℕ)
    (h : k' ≠ k) : aFind (aSet l k v) k' = aFind l k' := by
  have hkk : ¬(k = k') := fun hh => h hh.symm
  induction l with
  | nil =>
    unfold aSet aFind
    rw [List.find?_cons_of_neg _ (by simpa using hkk)]
  | cons e rest ih =>
    unfold aFind at ih ⊢
    by_cases he : e.1 = k
    · rw [show aSet (e :: rest) k v = (k, v) :: rest by simp [aSet, he]]
      rw [List.find?_cons_of_neg _ (by simpa using hkk)]
      by_cases hk2 : e.1 = k'
      · exact absurd (he ▸ hk2) hkk
      · rw [List.find?_cons_of_neg _ (by simpa using hk2)]
    · rw [show aSet (e :: rest) k v = e :: aSet rest k v by simp [aSet, he]]
      by_cases hk2 : e.1 = k'
      · rw [List.find?_cons_of_pos _ (by simpa using hk2),
          List.find?_cons_of_pos _ (by simpa using hk2)]
      · rw [List.find?_cons_of_neg _ (by simpa using hk2),
          List.find?_cons_of_neg _ (by simpa using hk2)]
        exact ih

/-- The invariant of the tail-to-head block loop: a key not yet seen is
absent from the accumulator, and the final binding for any key is
dictated by its first record in the remaining (tail-to-head) stream. -/
theorem loadEmbGo_spec (D : ℕ) (l : List (ℕ × Vec)) :
    ∀ (seen : List ℕ) (acc : List (ℕ × Vec)) (k : ℕ),
      (k ∉ seen → aFind acc k = none) →
      aFind (loadEmbGo D l seen acc) k =
        if k ∈ seen then aFind acc k
        else ((l.find? (fun r => r.1 = k)).map (·.2)).bind
          (fun v => if v = markerVec D then none else some v) := by
  induction l with
  | nil =>
    intro seen acc k hacc
    by_cases hs : k ∈ seen
    · simp [loadEmbGo, hs]
    · simp [loadEmbGo, hs, hacc hs]
  | cons e rest ih =>
    intro seen acc k hacc
    obtain ⟨k1, v1⟩ := e
    by_cases hseen1 : k1 ∈ seen
    · rw [show loadEmbGo D ((k1, v1) :: rest) seen acc
          = loadEmbGo D rest seen acc by simp [loadEmbGo, hseen1]]
      rw [ih seen acc k hacc]
      by_cases hks : k ∈ seen
      · simp [hks]
      · have hkk1 : ¬(k1 = k) := fun h => hks (h ▸ hseen1)
        rw [if_neg hks, if_neg hks, List.find?_cons_of_neg _ (by simpa using hkk1)]
    · by_cases hmark : v1 = markerVec D
      · rw [show loadEmbGo D ((k1, v1) :: rest) seen acc
            = loadEmbGo D rest (k1 :: seen) acc by simp [loadEmbGo, hseen1, hmark]]
        rw [ih (k1 :: seen) acc k
          (fun h => hacc (fun hk => h (List.mem_cons_of_mem _ hk)))]
        by_cases hkk : k = k1
        · subst hkk
          rw [if_pos (List.mem_cons_self _ _), if_neg hseen1]
          rw [hacc hseen1]
          simp [hmark]
        · have : (k ∈ k1 :: seen) ↔ k ∈ seen := by
            simp [List.mem_cons, hkk]
          rw [if_congr this rfl rfl]
          by_cases hks : k ∈ seen
          · simp [hks]
          · rw [if_neg hks, if_neg hks,
              List.find?_cons_of_neg _ (by simpa using fun h : k1 = k => hkk h.symm)]
      · rw [show loadEmbGo D ((k1, v1) :: rest) seen acc
            = loadEmbGo D rest (k1 :: seen) (aSet acc k1 v1) by
              simp [loadEmbGo, hseen1, hmark]]
        rw [ih (k1 :: seen) (aSet acc k1 v1) k ?hacc2]
        case hacc2 =>
          intro h
          have hk1 : k ≠ k1 := fun hh => h (hh ▸ List.mem_cons_self _ _)
          rw [aFind_aSet_ne _ _ _ _ hk1]
          exact hacc (fun hk => h (List.mem_cons_of_mem _ hk))
        by_cases hkk : k = k1
        · subst hkk
          rw [if_pos (List.mem_cons_self _ _), if_neg hseen1]
          rw [aFind_aSet_self]
          simp [hmark]
        · have hiff : (k ∈ k1 :: seen) ↔ k ∈ seen := by
            simp [List.mem_cons, hkk]
          rw [if_congr hiff rfl rfl]
          by_cases hks : k ∈ seen
          · rw [if_pos hks, if_pos hks, aFind_aSet_ne _ _ _ _ hkk]
          · rw [if_neg hks, if_neg hks,
              List.find?_cons_of_neg _ (by simpa using fun h : k1 = k => hkk h.symm)]

/-- C8: the embedding log is recovered tail-to-head with the first
record per key authoritative — the rebuilt map binds a key to the last
record written for it unless that record is the tombstone vector (every
component the maximum finite float), in which case the key is absent;
a key never written is also absent. -/
theorem c8_tail_latest_wins :
    ∀ (D : ℕ) (recs : List (ℕ × Vec)) (k : ℕ),
      aFind (loadEmbeddings D recs) k
        = (lastWrite recs k).bind (fun v => if v = markerVec D then none else some v) := by
  intro D recs k
  unfold loadEmbeddings lastWrite
  rw [loadEmbGo_spec D recs.reverse [] [] k (fun _ => rfl)]
  simp

/-- A store state holding one level-0 run with keys 1 and 9 (the state a
flush of a two-key memtable produces). -/
def stC9 : KVState := ⟨skiplist.init, [[Run.mk 1 [(1, "a"), (9, "b")]]], 1, 768⟩

/-- C9, counterexample: `scan(8, 3)` with `8 > 3` returns `[(9, "b")]`,
not the empty list.  The run passes the range filter (its `[1, 9]` range
meets both `key1 ≤ maxV` and `key2 ≥ minV`), and kvstore.cc:803 pushes
the entry at `lowerBound(key1)` into the merge heap before the
`[hIndex, end)` window is consulted, so that entry is emitted. -/
theorem c9_counterexample :
    (3 : ℕ) < 8 ∧ stC9.scan 8 3 = [(9, "b")] ∧ ([((9 : ℕ), ("b" : String))] ≠ []) := by
  refine ⟨by decide, by decide, by decide⟩

theorem takeWhile_dropWhile_nil {α : Type} (p q : α → Bool) (l : List α)
    (h : ∀ e, p e = false → q e = false) : (l.dropWhile p).takeWhile q = [] := by
  induction l with
  | nil => rfl
  | cons e rest ih =>
    by_cases hp : p e
    · simpa [List.dropWhile_cons, hp] using ih
    · simp [List.dropWhile_cons, hp, List.takeWhile_cons, h e (by simpa using hp)]

/-- C9 (amended): `scan(k1, k2)` with `k1 > k2` contributes nothing from
the memtable, and is the empty list provided no sorted run's range
straddles the inverted bounds (i.e. every run has `maxV < k1` or
`minV > k2`); a straddling run contributes its entry at
`lowerBound(k1)`, as the counterexample shows. -/
theorem c9_scan_empty_amended (st : KVState) (k1 k2 : ℕ) (h : k2 < k1)
    (hr : ∀ l ∈ st.levels, ∀ r ∈ l, r.maxV < k1 ∨ k2 < r.minV) :
    st.scan k1 k2 = [] := by
  have hitems : scanItems st k1 k2 = [] := by
    unfold scanItems
    rw [List.append_eq_nil]
    constructor
    · unfold skiplist.scanRange
      rw [takeWhile_dropWhile_nil _ _ _ ?_, List.map_nil]
      intro e he
      have h1 : k1 ≤ e.1 := by simpa using he
      simp [Nat.lt_of_lt_of_le h h1, Nat.not_le_of_lt (Nat.lt_of_lt_of_le h h1)]
    · rw [List.flatMap_eq_nil_iff]
      intro l hl
      rw [List.flatMap_eq_nil_iff]
      intro r hrr
      unfold runStream
      rw [if_pos]
      rcases hr l hl r hrr with hc | hc
      · exact Or.inl hc
      · exact Or.inr hc
  unfold KVState.scan
  rw [hitems]
  rfl

/-- C9 witness: the amended emptiness at a concrete state with a run
whose range lies strictly below the inverted bounds. -/
theorem c9_scan_empty_amended_witness :
    (10 : ℕ) < 20 ∧
      (∀ l ∈ stC9.levels, ∀ r ∈ l, r.maxV < 20 ∨ (10 : ℕ) < r.minV) ∧
      stC9.scan 20 10 = [] :=
  ⟨by decide, by decide, c9_scan_empty_amended stC9 20 10 (by decide) (by decide)⟩

/-! ## C5: memtable byte accounting -/

/-- The memtable mutators: upsert, physical delete, reset
(skiplist.cpp:25, 92, 162). -/
inductive SLOp where
  | ins (k : ℕ) (v : String)
  | rm (k : ℕ)
  | clear
  deriving Repr, DecidableEq

def applySL (m : skiplist) : SLOp → skiplist
  | .ins k v => m.insert k v
  | .rm k => (m.del k).2
  | .clear => skiplist.init

/-- The memtable after a sequence of operations from the reset state. -/
def runSL (ops : List SLOp) : skiplist := ops.foldl applySL skiplist.init

/-- Strictly ascending keys along the chain. -/
def entriesSorted (l : List (ℕ × String)) : Prop :=
  l.Pairwise (fun a b => a.1 < b.1)

theorem mem_insEntries {k : ℕ} {v : String} {l : List (ℕ × String)} {x : ℕ × String}
    (h : x ∈ insEntries k v l) : x = (k, v) ∨ x ∈ l := by
  induction l with
  | nil => simpa [insEntries] using h
  | cons e rest ih =>
    by_cases h1 : k < e.1
    · simpa [insEntries, h1, List.mem_cons, or_assoc] using h
    · by_cases h2 : k = e.1
      · rcases (by simpa [insEntries, h1, h2] using h : x = (k, v) ∨ x ∈ rest) with hh | hh
        · exact Or.inl hh
        · exact Or.inr (List.mem_cons_of_mem _ hh)
      · rcases (by simpa [insEntries, h1, h2] using h : x = e ∨ x ∈ insEntries k v rest) with hh | hh
        · exact Or.inr (hh ▸ List.mem_cons_self _ _)
        · rcases ih hh with hh2 | hh2
          · exact Or.inl hh2
          · exact Or.inr (List.mem_cons_of_mem _ hh2)

theorem sorted_insEntries {k : ℕ} {v : String} {l : List (ℕ × String)}
    (hs : entriesSorted l) : entriesSorted (insEntries k v l) := by
  induction l with
  | nil => simp [insEntries, entriesSorted]
  | cons e rest ih =>
    rw [entriesSorted, List.pairwise_cons] at hs
    obtain ⟨hhead, hrest⟩ := hs
    by_cases h1 : k < e.1
    · rw [show insEntries k v (e :: rest) = (k, v) :: e :: rest by simp [insEntries, h1]]
      rw [entriesSorted, List.pairwise_cons]
      refine ⟨?_, ?_⟩
      · intro y hy
        rcases List.mem_cons.mp hy with hh | hh
        · exact hh ▸ h1
        · exact Nat.lt_trans h1 (hhead y hh)
      · rw [List.pairwise_cons]; exact ⟨hhead, hrest⟩
    · by_cases h2 : k = e.1
      · rw [show insEntries k v (e :: rest) = (k, v) :: rest by simp [insEntries, h1, h2]]
        rw [entriesSorted, List.pairwise_cons]
        exact ⟨fun y hy => h2 ▸ hhead y hy, hrest⟩
      · rw [show insEntries k v (e :: rest) = e :: insEntries k v rest by
          simp [insEntries, h1, h2]]
        rw [entriesSorted, List.pairwise_cons]
        refine ⟨?_, ih hrest⟩
        intro y hy
        rcases mem_insEntries hy with hh | hh
        · have : e.1 < k := by omega
          simpa [hh] using this
        · exact hhead y hh

theorem sumBytes_nil : sumBytes [] = 0 := rfl

theorem sumBytes_cons (e : ℕ × String) (l : List (ℕ × String)) :
    sumBytes (e :: l) = 12 + e.2.length + sumBytes l := rfl

theorem slFind_cons_self {e : ℕ × String} {rest : List (ℕ × String)} {k : ℕ} {old : String}
    (hek : e.1 = k) (h : slFind (e :: rest) k = some old) : old = e.2 := by
  unfold slFind at h
  rw [List.find?_cons_of_pos _ (by simpa using hek)] at h
  simpa using h.symm

theorem slFind_cons_rest {e : ℕ × String} {rest : List (ℕ × String)} {k : ℕ}
    (hek : ¬(e.1 = k)) : slFind (e :: rest) k = slFind rest k := by
  unfold slFind
  rw [List.find?_cons_of_neg _ (by simpa using hek)]

theorem sumBytes_insEntries_of_none {k : ℕ} {v : String} {l : List (ℕ × String)}
    (h : slFind l k = none) :
    sumBytes (insEntries k v l) = sumBytes l + (12 + v.length) := by
  induction l with
  | nil => simp [insEntries, sumBytes]
  | cons e rest ih =>
    have hek : ¬(e.1 = k) := by
      intro hh
      unfold slFind at h
      rw [List.find?_cons_of_pos _ (by simpa using hh)] at h
      simp at h
    have hke : ¬(k = e.1) := fun hh => hek hh.symm
    have hrest : slFind rest k = none := by rwa [slFind_cons_rest hek] at h
    by_cases h1 : k < e.1
    · rw [show insEntries k v (e :: rest) = (k, v) :: e :: rest by simp [insEntries, h1]]
      simp only [sumBytes_cons]
      omega
    · rw [show insEntries k v (e :: rest) = e :: insEntries k v rest by
        simp [insEntries, h1, hke]]
      simp only [sumBytes_cons]
      rw [ih hrest]
      omega

theorem sumBytes_insEntries_of_some {k : ℕ} {v : String} {l : List (ℕ × String)} {old : String}
    (hs : entriesSorted l) (h : slFind l k = some old) :
    sumBytes (insEntries k v l) + old.length = sumBytes l + v.length := by
  induction l with
  | nil => simp [slFind] at h
  | cons e rest ih =>
    rw [entriesSorted, List.pairwise_cons] at hs
    obtain ⟨hhead, hrest⟩ := hs
    by_cases hek : e.1 = k
    · have hold := slFind_cons_self hek h
      subst hold
      have h1 : ¬(k < e.1) := by omega
      rw [show insEntries k v (e :: rest) = (k, v) :: rest by
        simp [insEntries, h1, hek.symm]]
      simp only [sumBytes_cons]
      omega
    · have hke : ¬(k = e.1) := fun hh => hek hh.symm
      have hfr : slFind rest k = some old := by rwa [slFind_cons_rest hek] at h
      have hmem : (k, old) ∈ rest := by
        unfold slFind at hfr
        rcases Option.map_eq_some'.mp hfr with ⟨y, hy1, hy2⟩
        have hk : y.1 = k := by simpa using List.find?_some hy1
        have := List.mem_of_find?_eq_some hy1
        rwa [show y = (k, old) from Prod.ext hk hy2] at this
      have h1 : ¬(k < e.1) := by
        have := hhead _ hmem
        omega
      rw [show insEntries k v (e :: rest) = e :: insEntries k v rest by
        simp [insEntries, h1, hke]]
      simp only [sumBytes_cons]
      have := ih hrest hfr
      omega

theorem sumBytes_eraseEntry {k : ℕ} {l : List (ℕ × String)} {old : String}
    (h : slFind l k = some old) :
    sumBytes (eraseEntry k l) + (12 + old.length) = sumBytes l := by
  induction l with
  | nil => simp [slFind] at h
  | cons e rest ih =>
    by_cases hek : e.1 = k
    · have hold := slFind_cons_self hek h
      subst hold
      rw [show eraseEntry k (e :: rest) = rest by simp [eraseEntry, hek]]
      simp only [sumBytes_cons]
      omega
    · have hfr : slFind rest k = some old := by rwa [slFind_cons_rest hek] at h
      rw [show eraseEntry k (e :: rest) = e :: eraseEntry k rest by
        simp [eraseEntry, hek]]
      simp only [sumBytes_cons]
      have := ih hfr
      omega

theorem sumBytes_ge_of_find {k : ℕ} {l : List (ℕ × String)} {old : String}
    (h : slFind l k = some old) : 12 + old.length ≤ sumBytes l := by
  induction l with
  | nil => simp [slFind] at h
  | cons e rest ih =>
    by_cases hek : e.1 = k
    · have hold := slFind_cons_self hek h
      subst hold
      simp only [sumBytes_cons]
      omega
    · have hfr : slFind rest k = some old := by rwa [slFind_cons_rest hek] at h
      have := ih hfr
      simp only [sumBytes_cons]
      omega

theorem eraseEntry_sublist (k : ℕ) (l : List (ℕ × String)) :
    List.Sublist (eraseEntry k l) l := by
  induction l with
  | nil => simp [eraseEntry]
  | cons e rest ih =>
    by_cases hek : e.1 = k
    · rw [show eraseEntry k (e :: rest) = rest by simp [eraseEntry, hek]]
      exact List.sublist_cons_self _ _
    · rw [show eraseEntry k (e :: rest) = e :: eraseEntry k rest by simp [eraseEntry, hek]]
      exact ih.cons₂ e

/-- The per-state invariant: the chain stays sorted and the `uint32_t`
counter is the payload sum reduced mod 2^32. -/
def SLInv (m : skiplist) : Prop :=
  entriesSorted m.entries ∧ m.bytes = sumBytes m.entries % U32

theorem slInv_step {m : skiplist} (hm : SLInv m) (op : SLOp) : SLInv (applySL m op) := by
  obtain ⟨hs, hb⟩ := hm
  cases op with
  | ins k v =>
    show SLInv (m.insert k v)
    unfold skiplist.insert
    cases h : slFind m.entries k with
    | none =>
      refine ⟨sorted_insEntries hs, ?_⟩
      dsimp only
      rw [sumBytes_insEntries_of_none h, hb]
      unfold U32 at hb ⊢
      omega
    | some old =>
      refine ⟨sorted_insEntries hs, ?_⟩
      dsimp only
      have h1 := sumBytes_insEntries_of_some (v := v) hs h
      have h2 := sumBytes_ge_of_find h
      rw [hb]
      unfold u32sub U32
      omega
  | rm k =>
    show SLInv (m.del k).2
    unfold skiplist.del
    cases h : slFind m.entries k with
    | none => exact ⟨hs, hb⟩
    | some old =>
      refine ⟨hs.sublist (eraseEntry_sublist k m.entries), ?_⟩
      dsimp only
      have h1 := sumBytes_eraseEntry h
      have h2 := sumBytes_ge_of_find h
      rw [hb]
      unfold U32 U64
      omega
  | clear => exact ⟨List.Pairwise.nil, rfl⟩

theorem runSL_inv (ops : List SLOp) : SLInv (runSL ops) := by
  suffices h : ∀ (m : skiplist), SLInv m → SLInv (ops.foldl applySL m) from
    h skiplist.init ⟨List.Pairwise.nil, rfl⟩
  induction ops with
  | nil => exact fun m hm => hm
  | cons op rest ih => exact fun m hm => ih (applySL m op) (slInv_step hm op)

/-- C5: after any sequence of memtable operations, the reported byte
count is the sum over live entries of `12 + len(value)` (exactly so
whenever that sum fits the `uint32_t` counter, and mod 2^32 always);
moreover an insert replacing an existing key changes the sum by
`new_len − old_len`, and a physical delete subtracts `12 + len(value)`
(stated additively to avoid truncated subtraction). -/
theorem c5_memtable_accounting (ops : List SLOp) :
    (runSL ops).getBytes = sumBytes (runSL ops).entries % U32 ∧
    (sumBytes (runSL ops).entries < U32 →
      (runSL ops).getBytes = sumBytes (runSL ops).entries) ∧
    (∀ k v old, slFind (runSL ops).entries k = some old →
      sumBytes ((runSL ops).insert k v).entries + old.length
        = sumBytes (runSL ops).entries + v.length) ∧
    (∀ k old, slFind (runSL ops).entries k = some old →
      sumBytes (((runSL ops).del k).2).entries + (12 + old.length)
        = sumBytes (runSL ops).entries) := by
  obtain ⟨hs, hb⟩ := runSL_inv ops
  unfold skiplist.getBytes
  refine ⟨hb, ?_, ?_, ?_⟩
  · intro hlt
    rw [hb, Nat.mod_eq_of_lt hlt]
  · intro k v old h
    unfold skiplist.insert
    rw [h]
    exact sumBytes_insEntries_of_some hs h
  · intro k old h
    unfold skiplist.del
    rw [h]
    exact sumBytes_eraseEntry h

/-- C5 witness: the accounting at a concrete operation sequence,
including a replacing insert and a physical delete. -/
theorem c5_memtable_accounting_witness :
    (sumBytes (runSL [SLOp.ins 1 "ab", SLOp.ins 2 "xyz", SLOp.ins 1 "abcd"]).entries < U32 ∧
      (runSL [SLOp.ins 1 "ab", SLOp.ins 2 "xyz", SLOp.ins 1 "abcd"]).getBytes
        = sumBytes (runSL [SLOp.ins 1 "ab", SLOp.ins 2 "xyz", SLOp.ins 1 "abcd"]).entries) ∧
    (slFind (runSL [SLOp.ins 1 "ab", SLOp.ins 2 "xyz", SLOp.ins 1 "abcd"]).entries 1
        = some "abcd" ∧
      sumBytes ((runSL [SLOp.ins 1 "ab", SLOp.ins 2 "xyz", SLOp.ins 1 "abcd"]).insert 1 "z").entries
          + ("abcd" : String).length
        = sumBytes (runSL [SLOp.ins 1 "ab", SLOp.ins 2 "xyz", SLOp.ins 1 "abcd"]).entries
          + ("z" : String).length) ∧
    (sumBytes (((runSL [SLOp.ins 1 "ab", SLOp.ins 2 "xyz", SLOp.ins 1 "abcd"]).del 2).2).entries
        + (12 + ("xyz" : String).length)
      = sumBytes (runSL [SLOp.ins 1 "ab", SLOp.ins 2 "xyz", SLOp.ins 1 "abcd"]).entries) :=
  ⟨⟨by decide, (c5_memtable_accounting _).2.1 (by decide)⟩,
    ⟨by decide, (c5_memtable_accounting _).2.2.1 1 "z" "abcd" (by decide)⟩,
    (c5_memtable_accounting _).2.2.2 2 "xyz" (by decide)⟩

/-! ## C3: tombstones are dropped only at the lowest level they reach

The store's mutators are `put` and `del` (`scan`/`get` do not change
state, and flush/compaction run inside `put`), so the reachable states
are the closure of the empty store under those two.  `compaction` writes
merge output only to level 1 and the `level ≥ 1` branch never writes, so
levels 2 and beyond stay empty forever: level 1 is the lowest level any
record — in particular any tombstone — can reach. -/

inductive Reach (eL : String → ℕ) : KVState → Prop where
  | init : Reach eL KVState.init
  | put (st : KVState) (k : ℕ) (v : String) : Reach eL st → Reach eL (KVState.put eL st k v)
  | del (st : KVState) (k : ℕ) : Reach eL st → Reach eL (st.del k).2

/-- Runs exist at levels 0 and 1 only. -/
abbrev ShallowLevels (st : KVState) : Prop := st.levels.length ≤ 2

theorem setLevel_length (i : ℕ) (ls : List (List Run)) (v : List Run) :
    (setLevel ls i v).length = max ls.length (i + 1) := by
  induction i generalizing ls with
  | zero => cases ls <;> simp [setLevel]
  | succ i ih =>
    cases ls with
    | nil =>
      rw [show setLevel [] (i + 1) v = [] :: setLevel [] i v from rfl]
      simp [ih]
    | cons l ls =>
      rw [show setLevel (l :: ls) (i + 1) v = l :: setLevel ls i v from rfl]
      simp [ih]
      omega

theorem getD_setLevel_self (i : ℕ) (ls : List (List Run)) (v : List Run) :
    (setLevel ls i v).getD i [] = v := by
  induction i generalizing ls with
  | zero => cases ls <;> simp [setLevel]
  | succ i ih =>
    cases ls with
    | nil =>
      rw [show setLevel [] (i + 1) v = [] :: setLevel [] i v from rfl]
      simpa using ih []
    | cons l ls =>
      rw [show setLevel (l :: ls) (i + 1) v = l :: setLevel ls i v from rfl]
      simpa using ih ls

theorem compaction_shallow {st : KVState} (h : ShallowLevels st) :
    ShallowLevels st.compaction := by
  unfold ShallowLevels at h ⊢
  unfold KVState.compaction
  split
  · split
    · exact h
    · unfold compactionMerge
      simp only [setLevel_length]
      omega
  · exact h

/-- Every entry of a run produced by `splitRuns` comes from the pending
table or the remaining merge output. -/
theorem splitRuns_entries_subset (l : List (ℕ × String)) :
    ∀ (cur : List (ℕ × String)) (t : ℕ) (r : Run),
      r ∈ (splitRuns t cur l).1 → ∀ e ∈ r.entries, e ∈ cur ++ l := by
  induction l with
  | nil =>
    intro cur t r hr e he
    unfold splitRuns at hr
    split at hr
    · simp at hr
    · rw [show ([Run.mk t cur], t).1 = [Run.mk t cur] from rfl] at hr
      rw [List.mem_singleton] at hr
      subst hr
      simpa using he
  | cons e0 rest ih =>
    intro cur t r hr e he
    unfold splitRuns at hr
    dsimp only at hr
    split at hr
    · rcases List.mem_cons.mp hr with hh | hh
      · subst hh
        have : e ∈ cur ++ [e0] := by simpa using he
        rcases List.mem_append.mp this with h1 | h1
        · exact List.mem_append_left _ h1
        · have : e = e0 := by simpa using h1
          exact List.mem_append_right _ (this ▸ List.mem_cons_self _ _)
      · have := ih [] (t + 1) r hh e he
        simp only [List.nil_append] at this
        exact List.mem_append_right _ (List.mem_cons_of_mem _ this)
    · have := ih (cur ++ [e0]) t r hr e he
      rcases List.mem_append.mp this with h1 | h1
      · rcases List.mem_append.mp h1 with h2 | h2
        · exact List.mem_append_left _ h2
        · have : e = e0 := by simpa using h2
          exact List.mem_append_right _ (this ▸ List.mem_cons_self _ _)
      · exact List.mem_append_right _ (List.mem_cons_of_mem _ h1)

/-- Every level-1 run after a compaction is either an untouched input or
a freshly written merge output carrying no tombstone record. -/
theorem compaction_level1_runs (st : KVState) :
    ∀ r ∈ st.compaction.levels.getD 1 [],
      r ∈ st.levels.getD 1 [] ∨ ∀ e ∈ r.entries, e.2 ≠ DEL := by
  unfold KVState.compaction
  split
  · split
    · intro r hr
      exact Or.inl hr
    · intro r hr
      unfold compactionMerge at hr
      dsimp only at hr
      rw [getD_setLevel_self] at hr
      rcases List.mem_append.mp hr with h1 | h1
      · exact Or.inl (List.mem_of_mem_filter h1)
      · right
        intro e he
        have hsub := splitRuns_entries_subset _ _ _ r h1 e he
        simp only [List.nil_append] at hsub
        unfold compLive at hsub
        have := List.of_mem_filter hsub
        simpa using this
  · intro r hr
    exact Or.inl hr

theorem put_shallow {st : KVState} (eL : String → ℕ) (k : ℕ) (v : String)
    (h : ShallowLevels st) : ShallowLevels (KVState.put eL st k v) := by
  unfold KVState.put
  dsimp only
  repeat' split
  all_goals try exact h
  all_goals refine compaction_shallow ?_
  all_goals unfold ShallowLevels
  all_goals dsimp only
  all_goals try exact h
  all_goals rw [setLevel_length]
  all_goals omega

theorem del_shallow {st : KVState} (k : ℕ) (h : ShallowLevels st) :
    ShallowLevels (st.del k).2 := by
  unfold ShallowLevels at h ⊢
  unfold KVState.del
  dsimp only
  split
  · exact h
  · exact h

theorem reach_shallow {eL : String → ℕ} {st : KVState} (h : Reach eL st) :
    ShallowLevels st := by
  induction h with
  | init => exact Nat.zero_le 2
  | put st k v _ ih => exact put_shallow eL k v ih
  | del st k _ ih => exact del_shallow k ih

theorem search_eq_DEL_mem {m : skiplist} {k : ℕ} (h : m.search k = DEL) :
    (k, DEL) ∈ m.entries := by
  unfold skiplist.search at h
  cases hf : slFind m.entries k with
  | none =>
    rw [hf] at h
    exact absurd h (by decide)
  | some v =>
    rw [hf] at h
    simp only [Option.getD_some] at h
    unfold slFind at hf
    rcases Option.map_eq_some'.mp hf with ⟨y, hy1, hy2⟩
    have hk : y.1 = k := by simpa using List.find?_some hy1
    have hmem := List.mem_of_find?_eq_some hy1
    rwa [show y = (k, DEL) from Prod.ext hk (hy2.trans h)] at hmem

/-- C3: in every reachable store state, (a) no run exists at any level
deeper than 1 and (b) compaction keeps it that way, so level 1 is the
lowest level a tombstone can reach; (c) every run a compaction newly
writes — always into level 1, that lowest level — carries no tombstone
record (the merge drops them, kvstore.cc:1001); and (d) at the higher
level the tombstone is propagated: the run a flush writes to level 0
contains the memtable's tombstone records verbatim. -/
theorem c3_tombstone_drop_lowest_level (eL : String → ℕ) (st : KVState)
    (h : Reach eL st) :
    (∀ L, 2 ≤ L → st.levels.getD L [] = []) ∧
    (∀ L, 2 ≤ L → st.compaction.levels.getD L [] = []) ∧
    (∀ r ∈ st.compaction.levels.getD 1 [],
      r ∈ st.levels.getD 1 [] ∨ ∀ e ∈ r.entries, e.2 ≠ DEL) ∧
    (∀ k, st.mem.search k = DEL →
      (k, DEL) ∈ (Run.mk (st.time + 1) st.mem.entries).entries) := by
  have hsh := reach_shallow h
  refine ⟨?_, ?_, compaction_level1_runs st, ?_⟩
  · intro L hL
    exact List.getD_eq_default _ _ (Nat.le_trans hsh hL)
  · intro L hL
    exact List.getD_eq_default _ _ (Nat.le_trans (compaction_shallow hsh) hL)
  · intro k hk
    exact search_eq_DEL_mem hk

/-- C3 witness: the theorem instantiated at the (reachable) initial
state. -/
theorem c3_tombstone_drop_lowest_level_witness :
    KVState.init.levels.getD 2 [] = [] ∧
      KVState.init.compaction.levels.getD 2 [] = [] := by
  have h := c3_tombstone_drop_lowest_level (fun _ => 0) KVState.init Reach.init
  exact ⟨h.1 2 (by decide), h.2.1 2 (by decide)⟩

/-! ## C6 / C7: HNSW graph invariants -/

theorem mem_aSet {α : Type} {l : List (ℕ × α)} {k : ℕ} {v : α} {x : ℕ × α}
    (h : x ∈ aSet l k v) : x = (k, v) ∨ x ∈ l := by
  induction l with
  | nil => simpa [aSet] using h
  | cons e rest ih =>
    by_cases he : e.1 = k
    · rcases List.mem_cons.mp (by simpa [aSet, he] using h) with hh | hh
      · exact Or.inl hh
      · exact Or.inr (List.mem_cons_of_mem _ hh)
    · rcases List.mem_cons.mp (by simpa [aSet, he] using h) with hh | hh
      · exact Or.inr (hh ▸ List.mem_cons_self _ _)
      · rcases ih hh with h2 | h2
        · exact Or.inl h2
        · exact Or.inr (List.mem_cons_of_mem _ h2)

theorem aFind_mem {α : Type} {l : List (ℕ × α)} {k : ℕ} {v : α}
    (h : aFind l k = some v) : (k, v) ∈ l := by
  unfold aFind at h
  rcases Option.map_eq_some'.mp h with ⟨y, hy1, hy2⟩
  have hk : y.1 = k := by simpa using List.find?_some hy1
  have := List.mem_of_find?_eq_some hy1
  rwa [show y = (k, v) from Prod.ext hk hy2] at this

/-- All connection lists of one node are within the cap. -/
def NodeB (n : HNSWNode) : Prop := ∀ c ∈ n.connections, c.length ≤ HNSW_M_max

/-- The degree invariant on a node map: every bound node (in the
`std::map` sense — the binding `aFind` sees) has all its per-level
connection lists within `HNSW_M_max`. -/
def NodesB (ns : List (ℕ × HNSWNode)) : Prop :=
  ∀ l n, aFind ns l = some n → NodeB n

/-- The degree invariant of the whole graph state. -/
def DegBounded (st : HNSWState) : Prop := NodesB st.nodes

theorem NodesB_aSet {ns : List (ℕ × HNSWNode)} {k : ℕ} {n : HNSWNode}
    (h : NodesB ns) (hn : NodeB n) : NodesB (aSet ns k n) := by
  intro l m hf
  by_cases hlk : l = k
  · subst hlk
    rw [aFind_aSet_self] at hf
    exact (Option.some.inj hf) ▸ hn
  · rw [aFind_aSet_ne _ _ _ _ hlk] at hf
    exact h l m hf

theorem bounded_resize {conns : List (List ℕ)} {m : ℕ}
    (h : ∀ c ∈ conns, c.length ≤ HNSW_M_max) :
    ∀ c ∈ resizeConns conns m, c.length ≤ HNSW_M_max := by
  intro c hc
  rcases List.mem_append.mp hc with hh | hh
  · exact h c (List.take_subset _ _ hh)
  · rw [List.eq_of_mem_replicate hh]
    exact Nat.zero_le _

theorem bounded_set {conns : List (List ℕ)} {i : ℕ} {v : List ℕ}
    (h : ∀ c ∈ conns, c.length ≤ HNSW_M_max) (hv : v.length ≤ HNSW_M_max) :
    ∀ c ∈ conns.set i v, c.length ≤ HNSW_M_max := by
  intro c hc
  rcases List.mem_or_eq_of_mem_set hc with hh | hh
  · exact h c hh
  · exact hh ▸ hv

theorem bounded_getD {conns : List (List ℕ)} {i : ℕ} {B : ℕ}
    (h : ∀ c ∈ conns, c.length ≤ B) : (conns.getD i []).length ≤ B := by
  by_cases hi : i < conns.length
  · rw [List.getD_eq_getElem _ _ hi]
    exact h _ (List.getElem_mem hi)
  · rw [List.getD_eq_default _ _ (by omega)]
    exact Nat.zero_le _

theorem getD_set_self {conns : List (List ℕ)} {i : ℕ} {v : List ℕ}
    (h : i < conns.length) : (conns.set i v).getD i [] = v := by
  rw [List.getD_eq_getElem _ _ (by simpa using h)]
  exact List.getElem_set_self _

theorem resizeConns_length (l : List (List ℕ)) (n : ℕ) :
    (resizeConns l n).length = n := by
  unfold resizeConns
  rw [List.length_append, List.length_take, List.length_replicate]
  omega

/-- Exact case analysis of `prune_connections`: either the state is
unchanged (and then any node bound to the label already satisfies the
early-return test), or the label's level list is replaced by a kept list
of at most `max_conn` labels. -/
theorem prune_cases (dist : ℕ → ℕ → ℚ) (hasEmb : ℕ → Bool) (st : HNSWState)
    (nl lvl B : ℕ) :
    (prune dist hasEmb st nl lvl B = st ∧
      (∀ node, aFind st.nodes nl = some node →
        node.connections.length ≤ lvl ∨ (node.connections.getD lvl []).length ≤ B)) ∨
    (∃ node kept, aFind st.nodes nl = some node ∧ kept.length ≤ B ∧
      prune dist hasEmb st nl lvl B =
        { st with
          nodes := aSet st.nodes nl ({ node with connections := node.connections.set lvl kept }) }) := by
  unfold prune
  cases hf : aFind st.nodes nl with
  | none =>
    left
    refine ⟨rfl, ?_⟩
    intro node hnode
    simp at hnode
  | some node =>
    dsimp only
    split
    · next hcond =>
      left
      refine ⟨rfl, ?_⟩
      intro node' hnode'
      obtain rfl : node = node' := Option.some.inj hnode'
      exact hcond
    · right
      refine ⟨node, pruneKept dist hasEmb st node nl lvl B, rfl, ?_, ?_⟩
      · unfold pruneKept
        rw [List.length_drop]
        omega
      · unfold updNode
        rw [hf]

theorem getD_set_ne {conns : List (List ℕ)} (i j : ℕ) (v : List ℕ) (hij : j ≠ i) :
    (conns.set i v).getD j [] = conns.getD j [] := by
  by_cases hj : j < conns.length
  · rw [List.getD_eq_getElem _ _ (by simpa using hj), List.getD_eq_getElem _ _ hj]
    exact List.getElem_set_ne (Ne.symm hij) _
  · have h1 : conns.length ≤ j := by omega
    rw [List.getD_eq_default _ _ (by rw [List.length_set]; exact h1),
      List.getD_eq_default _ _ h1]

theorem nodeB_of_index {conns : List (List ℕ)} {B : ℕ}
    (h : ∀ i, i < conns.length → (conns.getD i []).length ≤ B) :
    ∀ c ∈ conns, c.length ≤ B := by
  intro c hc
  rcases List.mem_iff_getElem.mp hc with ⟨i, hi, he⟩
  have := h i hi
  rw [List.getD_eq_getElem _ _ hi] at this
  rwa [he] at this

/-- Pruning a bounded state with any cap at most `HNSW_M_max` keeps the
degree invariant. -/
theorem prune_degB (dist : ℕ → ℕ → ℚ) (hasEmb : ℕ → Bool) {st : HNSWState}
    (nl lvl B : ℕ) (hB : B ≤ HNSW_M_max) (h : DegBounded st) :
    DegBounded (prune dist hasEmb st nl lvl B) := by
  rcases prune_cases dist hasEmb st nl lvl B with ⟨heq, -⟩ | ⟨node, kept, hf, hlen, heq⟩
  · rw [heq]
    exact h
  · rw [heq]
    exact NodesB_aSet h (bounded_set (h nl node hf) (Nat.le_trans hlen hB))

/-- Pruning with the full cap restores the invariant after a push: all
other nodes bounded, and the pushed node within the cap everywhere
except possibly at `lvl` (which the prune rebuilds). -/
theorem prune_degB_push (dist : ℕ → ℕ → ℚ) (hasEmb : ℕ → Bool) (st : HNSWState)
    (nl lvl : ℕ)
    (h : ∀ l n, aFind st.nodes l = some n → l ≠ nl → NodeB n)
    (hmain : ∀ n, aFind st.nodes nl = some n →
      lvl < n.connections.length ∧
      ∀ i, i ≠ lvl → (n.connections.getD i []).length ≤ HNSW_M_max) :
    DegBounded (prune dist hasEmb st nl lvl HNSW_M_max) := by
  rcases prune_cases dist hasEmb st nl lvl HNSW_M_max with
    ⟨heq, hcond⟩ | ⟨node, kept, hf, hklen, heq⟩
  · rw [heq]
    intro l n hfind
    by_cases hl : l = nl
    · subst hl
      obtain ⟨hlen, hidx⟩ := hmain n hfind
      rcases hcond n hfind with hc | hc
      · omega
      · refine nodeB_of_index ?_
        intro i _
        by_cases hil : i = lvl
        · exact hil ▸ hc
        · exact hidx i hil
    · exact h l n hfind hl
  · rw [heq]
    intro l n hfind
    by_cases hl : l = nl
    · subst hl
      rw [aFind_aSet_self] at hfind
      obtain rfl := Option.some.inj hfind
      obtain ⟨hlen, hidx⟩ := hmain node hf
      refine nodeB_of_index ?_
      intro i hi
      by_cases hil : i = lvl
      · subst hil
        rw [getD_set_self hlen]
        exact hklen
      · rw [getD_set_ne _ _ _ hil]
        exact hidx i hil
    · rw [aFind_aSet_ne _ _ _ _ hl] at hfind
      exact h l n hfind hl

theorem connectNeighbor_degB (dist : ℕ → ℕ → ℚ) (hasEmb : ℕ → Bool)
    (label lvl : ℕ) {st : HNSWState} (h : DegBounded st) (nl : ℕ) :
    DegBounded (connectNeighbor dist hasEmb label lvl st nl) := by
  unfold connectNeighbor
  split
  · exact h
  cases hf : aFind st.nodes nl with
  | none => exact h
  | some nn0 =>
    dsimp only
    split
    · exact h
    have hnn0 : NodeB nn0 := h nl nn0 hf
    have hnn : NodeB (growConns nn0 lvl) := by
      unfold growConns
      split
      · exact bounded_resize hnn0
      · exact hnn0
    have hlvl : lvl < (growConns nn0 lvl).connections.length := by
      unfold growConns
      split
      · next hle =>
        show lvl < (resizeConns nn0.connections (lvl + 1)).length
        rw [resizeConns_length]
        omega
      · next hle => omega
    split
    · exact NodesB_aSet h hnn
    · refine prune_degB_push dist hasEmb _ nl lvl ?_ ?_
      · intro l n hfind hlnl
        rw [aFind_aSet_ne _ _ _ _ hlnl, aFind_aSet_ne _ _ _ _ hlnl] at hfind
        exact h l n hfind
      · intro n hfind
        rw [aFind_aSet_self] at hfind
        obtain rfl := Option.some.inj hfind
        unfold pushEdge
        dsimp only
        constructor
        · rw [List.length_set]
          exact hlvl
        · intro i hil
          rw [getD_set_ne _ _ _ hil]
          exact bounded_getD hnn

theorem foldl_connectNeighbor_degB (dist : ℕ → ℕ → ℚ) (hasEmb : ℕ → Bool)
    (label lvl : ℕ) (ls : List ℕ) :
    ∀ {st : HNSWState}, DegBounded st →
      DegBounded (ls.foldl (connectNeighbor dist hasEmb label lvl) st) := by
  induction ls with
  | nil => exact fun h => h
  | cons x rest ih =>
    intro st h
    exact ih (connectNeighbor_degB dist hasEmb label lvl h x)

theorem updNode_degB {st : HNSWState} (h : DegBounded st) (label : ℕ)
    (f : HNSWNode → HNSWNode) (hf : ∀ n, NodeB n → NodeB (f n)) :
    DegBounded (updNode st label f) := by
  unfold updNode
  cases hfind : aFind st.nodes label with
  | none => exact h
  | some n => exact NodesB_aSet h (hf n (h label n hfind))

theorem connectAt_degB (dist : ℕ → ℕ → ℚ) (hasEmb : ℕ → Bool) {st : HNSWState}
    (h : DegBounded st) (label lvl : ℕ) (cand : List ℕ) :
    DegBounded (connectAt dist hasEmb st label lvl cand) := by
  unfold connectAt
  refine prune_degB dist hasEmb label lvl HNSW_M (by decide) ?_
  refine foldl_connectNeighbor_degB dist hasEmb label lvl _ ?_
  refine updNode_degB h label _ ?_
  intro n hn
  split
  · refine bounded_set hn ?_
    calc (cand.take HNSW_M).length ≤ HNSW_M := List.length_take_le _ _
    _ ≤ HNSW_M_max := by decide
  · exact hn

theorem connectLevels_degB (dist : ℕ → ℕ → ℚ) (hasEmb : ℕ → Bool)
    (label : ℕ) (cands : List (List ℕ)) (top : ℕ) :
    ∀ {st : HNSWState}, DegBounded st →
      DegBounded (connectLevels dist hasEmb st label cands top) := by
  induction top with
  | zero => exact fun h => connectAt_degB dist hasEmb h label 0 _
  | succ n ih =>
    intro st h
    exact ih (connectAt_degB dist hasEmb h label (n + 1) _)

theorem hnswInsert_degB (dist : ℕ → ℕ → ℚ) (hasEmb : ℕ → Bool) {st : HNSWState}
    (h : DegBounded st) (key lvl : ℕ) (cands : List (List ℕ)) :
    DegBounded (hnswInsert dist hasEmb st key lvl cands) := by
  unfold hnswInsert
  split
  · exact h
  dsimp only
  have h1 : DegBounded (match aFind st.keyToLabel key with
      | some l => insReuseLabel st l
      | none => insFreshLabel st key) := by
    cases aFind st.keyToLabel key with
    | some l =>
      dsimp only
      unfold insReuseLabel
      cases hn : aFind st.nodes l with
      | none => exact h
      | some n =>
        dsimp only
        refine NodesB_aSet h ?_
        intro c hc
        rcases List.mem_map.mp hc with ⟨c0, -, hc0⟩
        rw [← hc0]
        exact Nat.zero_le _
    | none => exact h
  have h2 : ∀ (st' : HNSWState) (lb : ℕ), DegBounded st' →
      DegBounded (insEnsureNode st' key lb lvl) := by
    intro st' lb h'
    unfold insEnsureNode
    cases aFind st'.nodes lb with
    | none =>
      refine NodesB_aSet h' ?_
      intro c hc
      rw [List.eq_of_mem_replicate hc]
      exact Nat.zero_le _
    | some n => exact h'
  have h3 : ∀ (st' : HNSWState) (lb : ℕ), DegBounded st' →
      DegBounded (insRefreshNode st' key lb lvl) := by
    intro st' lb h'
    exact updNode_degB h' lb _ (fun n hn => bounded_resize hn)
  split
  · exact h3 _ _ (h2 _ _ h1)
  · split
    · exact connectLevels_degB dist hasEmb _ cands _ (h3 _ _ (h2 _ _ h1))
    · exact connectLevels_degB dist hasEmb _ cands _ (h3 _ _ (h2 _ _ h1))

theorem markDeleted_degB {st : HNSWState} (h : DegBounded st) (key : ℕ) :
    DegBounded (markDeleted st key) := by
  unfold markDeleted
  cases aFind st.keyToLabel key with
  | none => exact h
  | some l =>
    dsimp only
    cases aFind st.nodes l with
    | none => exact h
    | some n =>
      dsimp only
      split
      · exact updNode_degB h l (fun m => { m with deleted := true }) (fun m hm => hm)
      · exact h

/-- C6: after any sequence of HNSW inserts and deletes — for arbitrary
sampled node levels, arbitrary candidate lists returned by the greedy
searches, any distance function and any embedding-presence predicate —
every node's connection list at every level holds at most
`HNSW_M_max = 20` labels; in particular the bound holds for every node
immediately after an insert returns. -/
theorem c6_degree_bound (dist : ℕ → ℕ → ℚ) (hasEmb : ℕ → Bool) (ops : List HOp) :
    DegBounded (runH dist hasEmb ops) := by
  suffices hstep : ∀ (st : HNSWState), DegBounded st →
      DegBounded (ops.foldl (stepH dist hasEmb) st) by
    refine hstep HNSWState.init ?_
    intro l n hfind
    simp [HNSWState.init, aFind] at hfind
  induction ops with
  | nil => exact fun st h => h
  | cons op rest ih =>
    intro st h
    refine ih _ ?_
    cases op with
    | ins key lvl cands => exact hnswInsert_degB dist hasEmb h key lvl cands
    | mdel key => exact markDeleted_degB h key

/-- C6 witness: the invariant at a concrete operation sequence. -/
theorem c6_degree_bound_witness :
    DegBounded (runH (fun _ _ => 0) (fun _ => true)
      [HOp.ins 5 1 [], HOp.ins 6 0 [[0], [0]], HOp.mdel 5, HOp.ins 7 0 [[0, 1]]]) :=
  c6_degree_bound (fun _ _ => 0) (fun _ => true)
    [HOp.ins 5 1 [], HOp.ins 6 0 [[0], [0]], HOp.mdel 5, HOp.ins 7 0 [[0, 1]]]

/-- The connection phase never moves the entry point, the global top
level, or any node's `max_level`: it only rewrites connection lists. -/
def SameEPML (st st' : HNSWState) : Prop :=
  st'.entryPoint = st.entryPoint ∧ st'.currentMaxLevel = st.currentMaxLevel ∧
  ∀ l, (aFind st'.nodes l).map (fun n => n.max_level)
    = (aFind st.nodes l).map (fun n => n.max_level)

theorem sameEPML_refl (st : HNSWState) : SameEPML st st := ⟨rfl, rfl, fun _ => rfl⟩

theorem sameEPML_trans {a b c : HNSWState} (h1 : SameEPML a b) (h2 : SameEPML b c) :
    SameEPML a c :=
  ⟨h2.1.trans h1.1, h2.2.1.trans h1.2.1, fun l => (h2.2.2 l).trans (h1.2.2 l)⟩

theorem aFind_aSet_ml {ns : List (ℕ × HNSWNode)} {k : ℕ} {n n' : HNSWNode}
    (hf : aFind ns k = some n) (hml : n'.max_level = n.max_level) :
    ∀ l, (aFind (aSet ns k n') l).map (fun m => m.max_level)
      = (aFind ns l).map (fun m => m.max_level) := by
  intro l
  by_cases hl : l = k
  · subst hl
    rw [aFind_aSet_self, hf]
    simp [hml]
  · rw [aFind_aSet_ne _ _ _ _ hl]

theorem prune_sameEPML (dist : ℕ → ℕ → ℚ) (hasEmb : ℕ → Bool) (st : HNSWState)
    (nl lvl B : ℕ) : SameEPML st (prune dist hasEmb st nl lvl B) := by
  rcases prune_cases dist hasEmb st nl lvl B with ⟨heq, -⟩ | ⟨node, kept, hf, -, heq⟩
  · rw [heq]
    exact sameEPML_refl st
  · rw [heq]
    exact ⟨rfl, rfl, aFind_aSet_ml hf rfl⟩

theorem growConns_ml (nn : HNSWNode) (lvl : ℕ) :
    (growConns nn lvl).max_level = nn.max_level := by
  unfold growConns
  split <;> rfl

theorem connectNeighbor_sameEPML (dist : ℕ → ℕ → ℚ) (hasEmb : ℕ → Bool)
    (label lvl : ℕ) (st : HNSWState) (nl : ℕ) :
    SameEPML st (connectNeighbor dist hasEmb label lvl st nl) := by
  unfold connectNeighbor
  split
  · exact sameEPML_refl st
  cases hf : aFind st.nodes nl with
  | none => exact sameEPML_refl st
  | some nn0 =>
    dsimp only
    split
    · exact sameEPML_refl st
    have h1 : SameEPML st { st with nodes := aSet st.nodes nl (growConns nn0 lvl) } :=
      ⟨rfl, rfl, aFind_aSet_ml hf (growConns_ml nn0 lvl)⟩
    split
    · exact h1
    · have h12 : SameEPML { st with nodes := aSet st.nodes nl (growConns nn0 lvl) }
          { st with
            nodes := aSet (aSet st.nodes nl (growConns nn0 lvl)) nl (pushEdge (growConns nn0 lvl) lvl label) } :=
        ⟨rfl, rfl, aFind_aSet_ml (aFind_aSet_self _ _ _) rfl⟩
      exact sameEPML_trans (sameEPML_trans h1 h12)
        (prune_sameEPML dist hasEmb _ nl lvl HNSW_M_max)

theorem updNode_sameEPML (st : HNSWState) (label : ℕ) (f : HNSWNode → HNSWNode)
    (hml : ∀ n, (f n).max_level = n.max_level) :
    SameEPML st (updNode st label f) := by
  unfold updNode
  cases hf : aFind st.nodes label with
  | none => exact sameEPML_refl st
  | some n => exact ⟨rfl, rfl, aFind_aSet_ml hf (hml n)⟩

theorem foldl_connectNeighbor_sameEPML (dist : ℕ → ℕ → ℚ) (hasEmb : ℕ → Bool)
    (label lvl : ℕ) (ls : List ℕ) :
    ∀ (st : HNSWState), SameEPML st (ls.foldl (connectNeighbor dist hasEmb label lvl) st) := by
  induction ls with
  | nil => exact fun st => sameEPML_refl st
  | cons x rest ih =>
    intro st
    exact sameEPML_trans (connectNeighbor_sameEPML dist hasEmb label lvl st x) (ih _)

theorem connectAt_sameEPML (dist : ℕ → ℕ → ℚ) (hasEmb : ℕ → Bool) (st : HNSWState)
    (label lvl : ℕ) (cand : List ℕ) :
    SameEPML st (connectAt dist hasEmb st label lvl cand) := by
  unfold connectAt
  refine sameEPML_trans (sameEPML_trans (updNode_sameEPML st label _ ?_)
    (foldl_connectNeighbor_sameEPML dist hasEmb label lvl _ _)) (prune_sameEPML _ _ _ _ _ _)
  intro n
  split <;> rfl

theorem connectLevels_sameEPML (dist : ℕ → ℕ → ℚ) (hasEmb : ℕ → Bool)
    (label : ℕ) (cands : List (List ℕ)) (top : ℕ) :
    ∀ (st : HNSWState), SameEPML st (connectLevels dist hasEmb st label cands top) := by
  induction top with
  | zero => exact fun st => connectAt_sameEPML dist hasEmb st label 0 _
  | succ n ih =>
    intro st
    exact sameEPML_trans (connectAt_sameEPML dist hasEmb st label (n + 1) _) (ih _)

theorem markDeleted_sameEPML (st : HNSWState) (key : ℕ) :
    SameEPML st (markDeleted st key) := by
  unfold markDeleted
  cases aFind st.keyToLabel key with
  | none => exact sameEPML_refl st
  | some l =>
    dsimp only
    cases aFind st.nodes l with
    | none => exact sameEPML_refl st
    | some n =>
      dsimp only
      split
      · exact updNode_sameEPML st l _ (fun m => rfl)
      · exact sameEPML_refl st

/-- The amended C7 invariant: a non-empty graph's entry point is always
bound in the node map and its level never exceeds the global top
level. -/
def EntryInv (st : HNSWState) : Prop :=
  0 ≤ st.currentMaxLevel →
    ∃ n, aFind st.nodes st.entryPoint = some n ∧
      (n.max_level : ℤ) ≤ st.currentMaxLevel

/-- The first three insert stages leave bindings of other labels
untouched. -/
theorem insStages_aFind_ne (st : HNSWState) (key lvl : ℕ) (l : ℕ)
    (hl : l ≠ (aFind st.keyToLabel key).getD st.nextLabel) :
    aFind (insRefreshNode
      (insEnsureNode
        (match aFind st.keyToLabel key with
          | some l0 => insReuseLabel st l0
          | none => insFreshLabel st key)
        key ((aFind st.keyToLabel key).getD st.nextLabel) lvl)
      key ((aFind st.keyToLabel key).getD st.nextLabel) lvl).nodes l
    = aFind st.nodes l := by
  set label := (aFind st.keyToLabel key).getD st.nextLabel with hlab
  have h1 : aFind (match aFind st.keyToLabel key with
      | some l0 => insReuseLabel st l0
      | none => insFreshLabel st key).nodes l = aFind st.nodes l := by
    cases hpre : aFind st.keyToLabel key with
    | some l0 =>
      have : l0 = label := by rw [hlab, hpre]; rfl
      dsimp only
      unfold insReuseLabel
      cases hn : aFind st.nodes l0 with
      | none => rfl
      | some n =>
        dsimp only
        rw [aFind_aSet_ne _ _ _ _ (this ▸ hl)]
    | none => rfl
  have h2 : ∀ (st' : HNSWState), aFind st'.nodes l = aFind st.nodes l →
      aFind (insEnsureNode st' key label lvl).nodes l = aFind st.nodes l := by
    intro st' h'
    unfold insEnsureNode
    cases aFind st'.nodes label with
    | none =>
      dsimp only
      rw [aFind_aSet_ne _ _ _ _ hl]
      exact h'
    | some n => exact h'
  have h3 : ∀ (st' : HNSWState), aFind st'.nodes l = aFind st.nodes l →
      aFind (insRefreshNode st' key label lvl).nodes l = aFind st.nodes l := by
    intro st' h'
    unfold insRefreshNode updNode
    cases aFind st'.nodes label with
    | none => exact h'
    | some n =>
      dsimp only
      rw [aFind_aSet_ne _ _ _ _ hl]
      exact h'
  exact h3 _ (h2 _ h1)

/-- After the ensure stage the label is bound. -/
theorem insEnsure_some (st' : HNSWState) (key label lvl : ℕ) :
    (aFind (insEnsureNode st' key label lvl).nodes label).isSome := by
  unfold insEnsureNode
  cases h : aFind st'.nodes label with
  | none =>
    dsimp only
    rw [aFind_aSet_self]
    rfl
  | some n =>
    dsimp only
    rw [h]
    rfl

/-- After the refresh stage the label is bound to a node of level
`lvl`. -/
theorem insRefresh_label (st' : HNSWState) (key label lvl : ℕ)
    (h : (aFind st'.nodes label).isSome) :
    ∃ n, aFind (insRefreshNode st' key label lvl).nodes label = some n ∧
      n.max_level = lvl := by
  unfold insRefreshNode updNode
  cases hf : aFind st'.nodes label with
  | none => simp [hf] at h
  | some n =>
    dsimp only
    rw [aFind_aSet_self]
    exact ⟨_, rfl, rfl⟩

/-- The first three insert stages keep the entry point and the top
level. -/
theorem insStages_ep_cml (st : HNSWState) (key lvl label : ℕ) :
    ∀ (stx : HNSWState), stx.entryPoint = st.entryPoint →
      stx.currentMaxLevel = st.currentMaxLevel →
      (insRefreshNode (insEnsureNode stx key label lvl) key label lvl).entryPoint
          = st.entryPoint ∧
        (insRefreshNode (insEnsureNode stx key label lvl) key label lvl).currentMaxLevel
          = st.currentMaxLevel := by
  intro stx hep hcml
  have e1 : (insEnsureNode stx key label lvl).entryPoint = stx.entryPoint ∧
      (insEnsureNode stx key label lvl).currentMaxLevel = stx.currentMaxLevel := by
    unfold insEnsureNode
    cases aFind stx.nodes label <;> exact ⟨rfl, rfl⟩
  have e2 : ∀ (sty : HNSWState),
      (insRefreshNode sty key label lvl).entryPoint = sty.entryPoint ∧
      (insRefreshNode sty key label lvl).currentMaxLevel = sty.currentMaxLevel := by
    intro sty
    unfold insRefreshNode updNode
    cases aFind sty.nodes label <;> exact ⟨rfl, rfl⟩
  refine ⟨((e2 _).1.trans e1.1).trans hep, ((e2 _).2.trans e1.2).trans hcml⟩

theorem insStage1_ep_cml (st : HNSWState) (key : ℕ) :
    (match aFind st.keyToLabel key with
      | some l0 => insReuseLabel st l0
      | none => insFreshLabel st key).entryPoint = st.entryPoint ∧
    (match aFind st.keyToLabel key with
      | some l0 => insReuseLabel st l0
      | none => insFreshLabel st key).currentMaxLevel = st.currentMaxLevel := by
  cases aFind st.keyToLabel key with
  | some l0 =>
    dsimp only
    unfold insReuseLabel
    cases aFind st.nodes l0 <;> exact ⟨rfl, rfl⟩
  | none => exact ⟨rfl, rfl⟩

theorem entryInv_of_sameEPML {st st' : HNSWState} (hs : SameEPML st st')
    (h : EntryInv st) : EntryInv st' := by
  intro hcml
  obtain ⟨hep, hcml2, hml⟩ := hs
  rw [hcml2] at hcml
  obtain ⟨n, hfind, hle⟩ := h hcml
  have hthis := hml st.entryPoint
  rw [hfind] at hthis
  rcases Option.map_eq_some'.mp hthis with ⟨n', hn', hmlv⟩
  refine ⟨n', by rw [hep]; exact hn', ?_⟩
  rw [hmlv, hcml2]
  exact hle

theorem markDeleted_entryInv {st : HNSWState} (h : EntryInv st) (key : ℕ) :
    EntryInv (markDeleted st key) :=
  entryInv_of_sameEPML (markDeleted_sameEPML st key) h

theorem hnswInsert_entryInv (dist : ℕ → ℕ → ℚ) (hasEmb : ℕ → Bool) {st : HNSWState}
    (h : EntryInv st) (key lvl : ℕ) (cands : List (List ℕ)) :
    EntryInv (hnswInsert dist hasEmb st key lvl cands) := by
  unfold hnswInsert
  split
  · exact h
  dsimp only
  set label := (aFind st.keyToLabel key).getD st.nextLabel with hlab
  obtain ⟨hep3, hcml3⟩ := insStages_ep_cml st key lvl label _
    (insStage1_ep_cml st key).1 (insStage1_ep_cml st key).2
  obtain ⟨n3, hfind3, hml3⟩ := insRefresh_label _ key label lvl
    (insEnsure_some _ key label lvl)
  split
  · intro _
    refine ⟨n3, hfind3, ?_⟩
    rw [hml3]
  · next hne0 =>
    obtain ⟨hep4, hcml4, hml4⟩ := connectLevels_sameEPML dist hasEmb label cands _ _
    split
    · next hlt =>
      intro _
      have hthis := hml4 label
      rw [hfind3] at hthis
      rcases Option.map_eq_some'.mp hthis with ⟨n4, hn4, hv⟩
      refine ⟨n4, hn4, ?_⟩
      dsimp only at hv ⊢
      rw [hv, hml3]
    · next hnlt =>
      intro hcml0
      by_cases hE : st.entryPoint = label
      · have hthis := hml4 label
        rw [hfind3] at hthis
        rcases Option.map_eq_some'.mp hthis with ⟨n4, hn4, hv⟩
        refine ⟨n4, by rw [hep4, hep3, hE]; exact hn4, ?_⟩
        dsimp only at hv ⊢
        rw [hv, hml3, hcml4, hcml3]
        rw [hcml4, hcml3] at hnlt
        omega
      · have hne : aFind (insRefreshNode (insEnsureNode
            (match aFind st.keyToLabel key with
              | some l0 => insReuseLabel st l0
              | none => insFreshLabel st key) key label lvl) key label lvl).nodes
            st.entryPoint = aFind st.nodes st.entryPoint :=
          insStages_aFind_ne st key lvl st.entryPoint hE
        have h0 : 0 ≤ st.currentMaxLevel := by
          rw [hcml4, hcml3] at hcml0
          exact hcml0
        obtain ⟨n, hfind, hle⟩ := h h0
        have hthis := hml4 st.entryPoint
        rw [hne, hfind] at hthis
        rcases Option.map_eq_some'.mp hthis with ⟨n', hn', hv⟩
        refine ⟨n', by rw [hep4, hep3]; exact hn', ?_⟩
        dsimp only at hv ⊢
        rw [hv, hcml4, hcml3]
        exact hle

/-- The entry-point invariant holds after every operation sequence. -/
theorem runH_entryInv (dist : ℕ → ℕ → ℚ) (hasEmb : ℕ → Bool) (ops : List HOp) :
    EntryInv (runH dist hasEmb ops) := by
  suffices hstep : ∀ (st : HNSWState), EntryInv st →
      EntryInv (ops.foldl (stepH dist hasEmb) st) by
    refine hstep HNSWState.init ?_
    intro hcml
    simp [HNSWState.init] at hcml
  induction ops with
  | nil => exact fun st h => h
  | cons op rest ih =>
    intro st h
    refine ih _ ?_
    cases op with
    | ins key lvl cands => exact hnswInsert_entryInv dist hasEmb h key lvl cands
    | mdel key => exact markDeleted_entryInv h key

/-- The exact property C7 claims of the entry point: live and at the
graph's top level (decidably phrased). -/
def entryOkBool (st : HNSWState) : Bool :=
  match aFind st.nodes st.entryPoint with
  | some n => !n.deleted && ((n.max_level : ℤ) == st.currentMaxLevel)
  | none => false

/-- C7, counterexample: insert key 1 at sampled level 2, re-insert it at
sampled level 0 (a `put` update re-samples the level and rewrites the
node in place, kvstore.cc:1770-1786, without touching
`current_max_level_`), then `del` key 1 (which flips the node's deleted
flag without moving the entry point, kvstore.cc:646-661).  The graph is
non-empty (`current_max_level = 2 ≥ 0`) but the entry point is a deleted
node of level 0 ≠ 2. -/
theorem c7_counterexample :
    ¬(0 ≤ (runH (fun _ _ => 0) (fun _ => true)
          [HOp.ins 1 2 [], HOp.ins 1 0 [[]], HOp.mdel 1]).currentMaxLevel →
      entryOkBool (runH (fun _ _ => 0) (fun _ => true)
          [HOp.ins 1 2 [], HOp.ins 1 0 [[]], HOp.mdel 1]) = true) := by
  decide

/-- C7 (amended): after any sequence of inserts and deletes (any sampled
levels, search candidates, distances), whenever `current_max_level ≥ 0`
the entry point label is bound in the node map and its `max_level` is at
most `current_max_level`; the bound node may however be marked deleted,
and its level may be strictly below `current_max_level`. -/
theorem c7_entry_point_amended (dist : ℕ → ℕ → ℚ) (hasEmb : ℕ → Bool)
    (ops : List HOp) (h : 0 ≤ (runH dist hasEmb ops).currentMaxLevel) :
    ∃ n, aFind (runH dist hasEmb ops).nodes (runH dist hasEmb ops).entryPoint = some n ∧
      (n.max_level : ℤ) ≤ (runH dist hasEmb ops).currentMaxLevel :=
  runH_entryInv dist hasEmb ops h

/-- C7 witness: the amended invariant at a concrete sequence. -/
theorem c7_entry_point_amended_witness :
    0 ≤ (runH (fun _ _ => 0) (fun _ => true)
        [HOp.ins 1 0 [], HOp.ins 2 1 [[0]]]).currentMaxLevel ∧
      ∃ n, aFind (runH (fun _ _ => 0) (fun _ => true)
            [HOp.ins 1 0 [], HOp.ins 2 1 [[0]]]).nodes
          (runH (fun _ _ => 0) (fun _ => true)
            [HOp.ins 1 0 [], HOp.ins 2 1 [[0]]]).entryPoint = some n ∧
        (n.max_level : ℤ) ≤ (runH (fun _ _ => 0) (fun _ => true)
            [HOp.ins 1 0 [], HOp.ins 2 1 [[0]]]).currentMaxLevel :=
  ⟨by decide,
    c7_entry_point_amended (fun _ _ => 0) (fun _ => true)
      [HOp.ins 1 0 [], HOp.ins 2 1 [[0]]] (by decide)⟩

end SmartLSM
